import Mathlib

/-!
# Verification of the microgpt-cpp scalar autograd core

This file gives a shallow embedding of the scalar reverse-mode autograd
engine of `include/microgpt/layers.h` (`class Value`, `class ValueStorage`)
and proves properties of it.

Modelling conventions:

* C++ `double` values are modelled by exact rationals `ℚ`.  A computed
  result counts as *finite* when its absolute value is at most `DBL_MAX`
  (the largest finite double, `(2^53 - 1) * 2^971`); results beyond that
  model the non-finite doubles produced by overflow.  Rounding is not
  modelled: the claims under study are about control flow (guards,
  traversal order, accumulation structure), never about rounding error.
* `std::numeric_limits<double>::epsilon()` is `2^(-52)`.
* `Value*` pointers into the arena (`ValueStorage::values`, a
  `std::deque<Value>`) are modelled as indices into a `List Node`.
  The deque only ever grows by `push_back`, so an index is a stable name
  for a node exactly as a pointer is in the C++ code.
* C++ exceptions are modelled by `Except Err`.  Failed `assert`s are also
  modelled as errors (constructor `Err.assertFail`): the repository builds
  with assertions enabled (no `-DNDEBUG` in its cmake/demo builds), and an
  assertion failure likewise stops execution before an invalid node is
  produced.  The two diagnostic asserts inside the `backward()` gradient
  loop (`isfinite(grad)` checks) are debug diagnostics with no
  counterpart in an exact-arithmetic model and are not modelled.
* The transcendental forward values (`std::exp`, `std::log`, and
  `std::pow` at non-integer exponents) are not rational.  The embedding is
  parameterised by an arbitrary `TransFns` providing those forward values;
  every theorem below is proved for **all** such parameters, so nothing
  depends on the stand-in.  `std::pow` at integer exponents is modelled
  exactly by `zpow`.
-/

namespace Microgpt

/-- Largest finite IEEE-754 double, `(2 - 2^-52) * 2^1023 = (2^53 - 1) * 2^971`. -/
def DBL_MAX : ℚ := (2 ^ 53 - 1) * 2 ^ 971

/-- `std::numeric_limits<double>::epsilon() = 2^-52`. -/
def DBL_EPSILON : ℚ := 1 / 2 ^ 52

/-- A rational models a finite double value (`std::isfinite`). -/
def finiteDouble (q : ℚ) : Prop := |q| ≤ DBL_MAX

instance (q : ℚ) : Decidable (finiteDouble q) :=
  inferInstanceAs (Decidable (|q| ≤ DBL_MAX))

theorem finiteDouble_zero : finiteDouble 0 := by
  unfold finiteDouble DBL_MAX
  rw [abs_zero]
  norm_num

/-- One scalar computation-graph vertex (`class Value` of `layers.h`):
forward value `data`, gradient accumulator `grad`, the back edges
`children_` (here `operands`, as arena indices) and the paired local
partial derivatives `local_grads_`. -/
structure Node where
  data : ℚ
  grad : ℚ
  operands : List Nat
  localGrads : List ℚ
deriving DecidableEq, Repr

/-- The node a dangling index denotes; theorems always restrict to
in-range indices, this default only totalises lookups. -/
def defaultNode : Node := ⟨0, 0, [], []⟩

/-- The arena contents: `ValueStorage::values` (a `std::deque<Value>`). -/
abbrev Graph := List Node

/-- Dereference an arena index (a `Value*`). -/
def nodeAt (g : Graph) (i : Nat) : Node := g.getD i defaultNode

/-- The operand indices (`children_`) of node `i`. -/
def ops (g : Graph) (i : Nat) : List Nat := (nodeAt g i).operands

/-- The local gradients (`local_grads_`) of node `i`. -/
def lgrads (g : Graph) (i : Nat) : List ℚ := (nodeAt g i).localGrads

/-- The forward value (`->data`) of node `i`. -/
def dataAt (g : Graph) (i : Nat) : ℚ := (nodeAt g i).data

/-- The gradient (`->grad`) of node `i`. -/
def gradAt (g : Graph) (i : Nat) : ℚ := (nodeAt g i).grad

/-- Mutate the `grad` field of node `i` in place (`v->grad = ...` /
`v->grad += ...`); every other field of every node is untouched. -/
def setG : Graph → Nat → (ℚ → ℚ) → Graph
  | [], _, _ => []
  | n :: rest, 0, f => { n with grad := f n.grad } :: rest
  | n :: rest, i + 1, f => n :: setG rest i f

@[simp] theorem setG_nil (i : Nat) (f : ℚ → ℚ) : setG [] i f = [] := rfl

@[simp] theorem setG_cons_zero (n : Node) (rest : Graph) (f : ℚ → ℚ) :
    setG (n :: rest) 0 f = { n with grad := f n.grad } :: rest := rfl

@[simp] theorem setG_cons_succ (n : Node) (rest : Graph) (i : Nat) (f : ℚ → ℚ) :
    setG (n :: rest) (i + 1) f = n :: setG rest i f := rfl

@[simp] theorem setG_length (g : Graph) (i : Nat) (f : ℚ → ℚ) :
    (setG g i f).length = g.length := by
  induction g generalizing i with
  | nil => rfl
  | cons n rest ih => cases i <;> simp [setG, ih]

theorem nodeAt_setG_self (g : Graph) (i : Nat) (f : ℚ → ℚ) (h : i < g.length) :
    nodeAt (setG g i f) i = { nodeAt g i with grad := f (nodeAt g i).grad } := by
  induction g generalizing i with
  | nil => simp at h
  | cons n rest ih =>
    cases i with
    | zero => simp [nodeAt]
    | succ j =>
      simp only [setG_cons_succ]
      have hj : j < rest.length := by simpa using h
      simpa [nodeAt] using ih j hj

theorem nodeAt_setG_ne (g : Graph) (i j : Nat) (f : ℚ → ℚ) (h : j ≠ i) :
    nodeAt (setG g i f) j = nodeAt g j := by
  induction g generalizing i j with
  | nil => simp [nodeAt]
  | cons n rest ih =>
    cases i with
    | zero =>
      cases j with
      | zero => exact absurd rfl h
      | succ j' => simp [nodeAt]
    | succ i' =>
      cases j with
      | zero => simp [nodeAt]
      | succ j' =>
        have : j' ≠ i' := fun hc => h (by omega)
        simpa [nodeAt] using ih i' j' this

theorem nodeAt_setG_oob (g : Graph) (i j : Nat) (f : ℚ → ℚ) (h : g.length ≤ i) :
    nodeAt (setG g i f) j = nodeAt g j := by
  induction g generalizing i j with
  | nil => simp [nodeAt]
  | cons n rest ih =>
    cases i with
    | zero => simp at h
    | succ i' =>
      cases j with
      | zero => simp [nodeAt]
      | succ j' =>
        have : rest.length ≤ i' := by simpa using h
        simpa [nodeAt] using ih i' j' this

@[simp] theorem nodeAt_append_lt (g tail : Graph) (i : Nat) (h : i < g.length) :
    nodeAt (g ++ tail) i = nodeAt g i := by
  simp [nodeAt, List.getD_eq_getElem?_getD, List.getElem?_append_left h]

theorem nodeAt_append_right (g tail : Graph) (i : Nat) (h : g.length ≤ i) :
    nodeAt (g ++ tail) i = nodeAt tail (i - g.length) := by
  simp [nodeAt, List.getD_eq_getElem?_getD, List.getElem?_append_right h]

/-! ## The error vocabulary

`Err` distinguishes the failure modes of the C++ code:
`std::domain_error` → `domainErr`, `std::overflow_error` → `overflowErr`,
`std::runtime_error` → `runtimeErr`, a failed `assert` → `assertFail`.
`fuelOut` is an artifact of the bounded-recursion embedding of the
recursive `build_topo`; it is proved unreachable for the fuel `backward`
supplies. -/
inductive Err where
  | domainErr
  | overflowErr
  | runtimeErr
  | assertFail
  | fuelOut
deriving DecidableEq, Repr

/-- Stand-ins for the transcendental parts of `std::exp`, `std::log` and
`std::pow` (at non-integer exponents), whose exact values are irrational.
Every theorem in this file holds for an arbitrary `TransFns`, so no
result depends on these forward values. -/
structure TransFns where
  expQ : ℚ → ℚ
  logQ : ℚ → ℚ
  powQ : ℚ → ℚ → ℚ

/-- A trivial instantiation used only by concrete witnesses. -/
def TransFns.triv : TransFns := ⟨fun _ => 0, fun _ => 0, fun _ _ => 0⟩

instance {ε α : Type} [DecidableEq ε] [DecidableEq α] : DecidableEq (Except ε α) :=
  fun a b =>
    match a, b with
    | .error e₁, .error e₂ =>
      if h : e₁ = e₂ then isTrue (by rw [h])
      else isFalse (by intro hc; cases hc; exact h rfl)
    | .ok x₁, .ok x₂ =>
      if h : x₁ = x₂ then isTrue (by rw [h])
      else isFalse (by intro hc; cases hc; exact h rfl)
    | .error _, .ok _ => isFalse (by intro hc; cases hc)
    | .ok _, .error _ => isFalse (by intro hc; cases hc)

/-- Is the rational an integer (models `std::floor(e) == e` for the
finite double exponent `e`)? -/
def isIntQ (k : ℚ) : Prop := k.den = 1

instance (k : ℚ) : Decidable (isIntQ k) := inferInstanceAs (Decidable (k.den = 1))

/-- `std::pow(a, k)`: exact (`zpow`) at integer exponents, the `TransFns`
stand-in otherwise.  The factory guards reject every combination where
`std::pow` would leave the real domain. -/
def powModel (E : TransFns) (a k : ℚ) : ℚ :=
  if k.den = 1 then a ^ k.num else E.powQ a k

namespace ValueStorage

/-- `ValueStorage::store(Value(data, operands, local_grads))`: the
`Value` constructor asserts `isfinite(data)` and the `operands` /
`local_grads` size pairing, then the node is appended to the deque and
its address — here its index — returned.  Appending is the ONLY way the
arena contents ever change. -/
def storeChecked (s : Graph) (d : ℚ) (opsL : List Nat) (lgsL : List ℚ) :
    Except Err (Graph × Nat) :=
  if finiteDouble d then
    if opsL.length = lgsL.length then
      .ok (s ++ [⟨d, 0, opsL, lgsL⟩], s.length)
    else .error .assertFail
  else .error .assertFail

/-- `ValueStorage::constant(double)`. -/
def constant (s : Graph) (d : ℚ) : Except Err (Graph × Nat) :=
  storeChecked s d [] []

/-- `ValueStorage::add(Value* a, Value* b)`: computes `a->data + b->data`,
throws `std::overflow_error` when both operands are positive and the sum
exceeds `DBL_MAX`, then stores the node with local gradients `{1, 1}`.
(There is no symmetric check for negative overflow; that case reaches the
constructor's `isfinite` assert instead.) -/
def add (s : Graph) (a b : Nat) : Except Err (Graph × Nat) :=
  if dataAt s a > 0 ∧ dataAt s b > 0 ∧ dataAt s a > DBL_MAX - dataAt s b then
    .error .overflowErr
  else
    storeChecked s (dataAt s a + dataAt s b) [a, b] [1, 1]

/-- `ValueStorage::add(Value* a, double b)`. -/
def addC (s : Graph) (a : Nat) (b : ℚ) : Except Err (Graph × Nat) :=
  if finiteDouble b then
    storeChecked s (dataAt s a + b) [a] [1]
  else .error .assertFail

/-- `ValueStorage::mul(Value* a, Value* b)`: stores `a->data * b->data`
with local gradients `{b->data, a->data}` after asserting the product is
finite. -/
def mul (s : Graph) (a b : Nat) : Except Err (Graph × Nat) :=
  if finiteDouble (dataAt s a * dataAt s b) then
    storeChecked s (dataAt s a * dataAt s b) [a, b] [dataAt s b, dataAt s a]
  else .error .assertFail

/-- `ValueStorage::mul(Value* a, double b)`. -/
def mulC (s : Graph) (a : Nat) (b : ℚ) : Except Err (Graph × Nat) :=
  if finiteDouble b then
    if finiteDouble (dataAt s a * b) then
      storeChecked s (dataAt s a * b) [a] [b]
    else .error .assertFail
  else .error .assertFail

/-- `ValueStorage::neg(Value* a) = mul(a, -1.0)`. -/
def neg (s : Graph) (a : Nat) : Except Err (Graph × Nat) :=
  mulC s a (-1)

/-- `ValueStorage::sub(Value* a, Value* b)`: the composite
`add(a, neg(b))`; the intermediate negation node is stored in the same
arena before the sum node. -/
def sub (s : Graph) (a b : Nat) : Except Err (Graph × Nat) := do
  let (s₁, negB) ← neg s b
  add s₁ a negB

/-- `ValueStorage::sub(Value* a, double b) = add(a, -b)`. -/
def subC (s : Graph) (a : Nat) (b : ℚ) : Except Err (Graph × Nat) :=
  addC s a (-b)

/-- `ValueStorage::pow(Value* a, double exponent)`: rejects a negative
base with a non-integer exponent and a zero base with a negative exponent
(`std::domain_error`), then stores `pow(a->data, k)` with local gradient
`k * pow(a->data, k - 1)`, asserting both finite. -/
def pow (E : TransFns) (s : Graph) (a : Nat) (k : ℚ) : Except Err (Graph × Nat) :=
  if finiteDouble k then
    if dataAt s a < 0 ∧ ¬ isIntQ k then .error .domainErr
    else if dataAt s a = 0 ∧ k < 0 then .error .domainErr
    else
      if finiteDouble (powModel E (dataAt s a) k) then
        if finiteDouble (k * powModel E (dataAt s a) (k - 1)) then
          storeChecked s (powModel E (dataAt s a) k) [a]
            [k * powModel E (dataAt s a) (k - 1)]
        else .error .assertFail
      else .error .assertFail
  else .error .assertFail

/-- `ValueStorage::div(Value* a, Value* b)`: rejects a near-zero divisor
(`|b->data| < epsilon`) BEFORE creating any node, then builds the
composite `mul(a, pow(b, -1))`; the intermediate reciprocal node lives in
the same arena. -/
def div (E : TransFns) (s : Graph) (a b : Nat) : Except Err (Graph × Nat) :=
  if |dataAt s b| < DBL_EPSILON then .error .domainErr
  else do
    let (s₁, bInv) ← pow E s b (-1)
    mul s₁ a bInv

/-- `ValueStorage::div(Value* a, double b) = mul(a, 1.0/b)` guarded by the
same near-zero check. -/
def divC (s : Graph) (a : Nat) (b : ℚ) : Except Err (Graph × Nat) :=
  if |b| < DBL_EPSILON then .error .domainErr
  else if finiteDouble b then mulC s a (1 / b)
  else .error .assertFail

/-- `ValueStorage::log(Value* a)`: rejects `a->data <= 0`
(`std::domain_error`) before any node exists, then stores `log(a->data)`
with local gradient `1 / a->data`. -/
def log (E : TransFns) (s : Graph) (a : Nat) : Except Err (Graph × Nat) :=
  if dataAt s a ≤ 0 then .error .domainErr
  else
    if finiteDouble (E.logQ (dataAt s a)) then
      storeChecked s (E.logQ (dataAt s a)) [a] [1 / dataAt s a]
    else .error .assertFail

/-- `ValueStorage::exp(Value* a)`: throws `std::overflow_error` when
`a->data > 700.0` (a conservative bound: `exp` first overflows just above
`709.78`), then stores `exp(a->data)` with local gradient equal to the
result. -/
def exp (E : TransFns) (s : Graph) (a : Nat) : Except Err (Graph × Nat) :=
  if dataAt s a > 700 then .error .overflowErr
  else
    if finiteDouble (E.expQ (dataAt s a)) then
      storeChecked s (E.expQ (dataAt s a)) [a] [E.expQ (dataAt s a)]
    else .error .assertFail

/-- `ValueStorage::relu(Value* a)`: stores `max(0, a->data)` with local
gradient `1` for positive input and `0` otherwise. -/
def relu (s : Graph) (a : Nat) : Except Err (Graph × Nat) :=
  storeChecked s (max 0 (dataAt s a)) [a] [if dataAt s a > 0 then 1 else 0]

end ValueStorage

/-- One call to any `ValueStorage` factory, as a single datatype so that
invariants can be stated uniformly over the whole operation set. -/
inductive Fcall where
  | constant (c : ℚ)
  | add (a b : Nat)
  | addC (a : Nat) (c : ℚ)
  | mul (a b : Nat)
  | mulC (a : Nat) (c : ℚ)
  | neg (a : Nat)
  | sub (a b : Nat)
  | subC (a : Nat) (c : ℚ)
  | powc (a : Nat) (k : ℚ)
  | div (a b : Nat)
  | divC (a : Nat) (c : ℚ)
  | log (a : Nat)
  | exp (a : Nat)
  | relu (a : Nat)
deriving DecidableEq, Repr

/-- Dispatch an `Fcall` to the corresponding factory. -/
def applyCall (E : TransFns) (s : Graph) : Fcall → Except Err (Graph × Nat)
  | .constant c => ValueStorage.constant s c
  | .add a b => ValueStorage.add s a b
  | .addC a c => ValueStorage.addC s a c
  | .mul a b => ValueStorage.mul s a b
  | .mulC a c => ValueStorage.mulC s a c
  | .neg a => ValueStorage.neg s a
  | .sub a b => ValueStorage.sub s a b
  | .subC a c => ValueStorage.subC s a c
  | .powc a k => ValueStorage.pow E s a k
  | .div a b => ValueStorage.div E s a b
  | .divC a c => ValueStorage.divC s a c
  | .log a => ValueStorage.log E s a
  | .exp a => ValueStorage.exp E s a
  | .relu a => ValueStorage.relu s a

/-! ## The backward traversal (`Value::build_topo`, `Value::backward`)

`build_topo` is a depth-first post-order traversal with a visited set.
At the entry of every recursive call it checks
`topo.size() > 100000` and throws (`"Computation graph too large or has
cycle"`); then, if the node is unvisited, it marks it visited, recurses
into each operand in order, and finally appends the node to `topo`.
The C++ recursion is embedded with explicit fuel; `backward` supplies
`g.length + 1` units, proved sufficient below, so the `fuelOut` artifact
never occurs for the graphs under study. -/

/-- The bound `topo.size() > 100000` tested at each `build_topo` entry. -/
def TOPO_LIMIT : Nat := 100000

/-- `Value::build_topo(v, topo, visited)`: at entry, check the size
bound, then the visited set; otherwise mark visited, recurse into each
operand in order (each recursive call one level deeper), and finally
append `v` to `topo`. -/
def btAux (g : Graph) : Nat → Nat → List Nat × List Nat →
    Except Err (List Nat × List Nat)
  | 0, _, _ => .error .fuelOut
  | fuel + 1, v, st =>
    if st.1.length > TOPO_LIMIT then .error .runtimeErr
    else if v ∈ st.2 then .ok st
    else
      match (ops g v).foldlM (fun st' c => btAux g fuel c st') (st.1, v :: st.2) with
      | .error e => .error e
      | .ok st' => .ok (st'.1 ++ [v], st'.2)

/-- The `for (child : children_) build_topo(child, ...)` loop. -/
def btList (g : Graph) (fuel : Nat) (cs : List Nat) (st : List Nat × List Nat) :
    Except Err (List Nat × List Nat) :=
  cs.foldlM (fun st' c => btAux g fuel c st') st

/-- The edges applied while processing node `v`: one `(v, i)` per operand
position `i`. -/
def edgesOf (g : Graph) (v : Nat) : List (Nat × Nat) :=
  (List.range (ops g v).length).map (fun i => (v, i))

/-- One chain-rule application
`operands[i]->grad += local_grads_[i] * v->grad` (edge `e = (v, i)`). -/
def applyEdge (h : Graph) (e : Nat × Nat) : Graph :=
  match (nodeAt h e.1).operands.get? e.2, (nodeAt h e.1).localGrads.get? e.2 with
  | some c, some lg => setG h c (fun o => o + lg * gradAt h e.1)
  | _, _ => h

/-- The inner loop of `backward()` for one node of the reversed order. -/
def processNode (h : Graph) (v : Nat) : Graph :=
  (List.range (nodeAt h v).operands.length).foldl (fun h' i => applyEdge h' (v, i)) h

/-- The gradient phase of `backward()`: seed `terminal->grad = 1.0`
(a plain assignment, overwriting any previous value), then process the
reverse of the post-order. -/
def backwardFrom (g : Graph) (t : Nat) (topo : List Nat) : Graph :=
  topo.reverse.foldl processNode (setG g t (fun _ => 1))

/-- `Value::backward()`: build the topological order (any exception is
rethrown as a `std::runtime_error`), then run the gradient phase. -/
def backward (g : Graph) (t : Nat) : Except Err Graph :=
  match btAux g (g.length + 1) t ([], []) with
  | .error _ => .error .runtimeErr
  | .ok (topo, _) => .ok (backwardFrom g t topo)

/-! ## Graph-theoretic notions -/

/-- The structural invariant every arena-built graph satisfies: a node's
operands are nodes stored strictly earlier (a factory can only reference
already-constructed nodes).  It is how "the reachable graph is a DAG"
manifests in the arena: edges always point to smaller indices, so no
cycle can exist. -/
def DecGraph (g : Graph) : Prop := ∀ i, ∀ c ∈ ops g i, c < i

/-- `Reach g u w`: node `w` is reachable from `u` along `operands` edges
(reflexively). -/
inductive Reach (g : Graph) : Nat → Nat → Prop where
  | refl (v : Nat) : Reach g v v
  | head {u c w : Nat} : c ∈ ops g u → Reach g c w → Reach g u w

theorem Reach.le {g : Graph} (hDec : DecGraph g) {u w : Nat} (h : Reach g u w) :
    w ≤ u := by
  induction h with
  | refl v => exact Nat.le_refl v
  | head hc _ ih => exact Nat.le_trans ih (Nat.le_of_lt (hDec _ _ hc))

theorem Reach.of_op {g : Graph} {u c : Nat} (hc : c ∈ ops g u) : Reach g u c :=
  .head hc (.refl c)

/-- Any set containing `v` and closed under taking operands contains
everything reachable from `v`. -/
theorem reach_mem_of_closed {g : Graph} {T : List Nat}
    (hclosed : ∀ u ∈ T, ∀ c ∈ ops g u, c ∈ T) {v x : Nat}
    (hv : v ∈ T) (hr : Reach g v x) : x ∈ T := by
  induction hr with
  | refl => exact hv
  | head hc _ ih => exact ih (hclosed _ hv _ hc)

/-- A leaf reaches only itself. -/
theorem reach_leaf {g : Graph} {c x : Nat} (hleaf : ops g c = [])
    (h : Reach g c x) : x = c := by
  cases h with
  | refl => rfl
  | head hc _ => rw [hleaf] at hc; cases hc

/-- The `topo` list built so far, being duplicate-free and made of
in-range indices, can never exceed the node count. -/
theorem length_le_of_nodup_lt {l : List Nat} {n : Nat} (hnd : l.Nodup)
    (hlt : ∀ x ∈ l, x < n) : l.length ≤ n := by
  have hsub : l.toFinset ⊆ Finset.range n := by
    intro x hx
    simp only [List.mem_toFinset] at hx
    exact Finset.mem_range.mpr (hlt x hx)
  have := Finset.card_le_card hsub
  rwa [List.toFinset_card_of_nodup hnd, Finset.card_range] at this

/-- Post-order invariant: every node of the list has all its operands
strictly earlier in the list. -/
def OrderOK (g : Graph) (l : List Nat) : Prop :=
  ∀ k (hk : k < l.length), ∀ c ∈ ops g (l.get ⟨k, hk⟩), c ∈ l.take k

theorem orderOK_nil (g : Graph) : OrderOK g [] := by
  intro k hk
  simp at hk

/-- `OrderOK` gives closure: operands of listed nodes are listed. -/
theorem orderOK_closed {g : Graph} {l : List Nat} (h : OrderOK g l) :
    ∀ u ∈ l, ∀ c ∈ ops g u, c ∈ l := by
  intro u hu c hc
  obtain ⟨⟨k, hk⟩, rfl⟩ := List.get_of_mem hu
  exact List.take_subset _ _ (h k hk c hc)

/-- Appending a node whose operands are already listed preserves the
post-order invariant. -/
theorem orderOK_append_one {g : Graph} {l : List Nat} {v : Nat}
    (h : OrderOK g l) (hv : ∀ c ∈ ops g v, c ∈ l) : OrderOK g (l ++ [v]) := by
  intro k hk c hc
  rcases Nat.lt_or_ge k l.length with hkl | hkl
  · have hget : (l ++ [v]).get ⟨k, hk⟩ = l.get ⟨k, hkl⟩ := by
      simp [List.get_eq_getElem, List.getElem_append_left hkl]
    rw [hget] at hc
    have hmem := h k hkl c hc
    rwa [List.take_append_of_le_length (Nat.le_of_lt hkl)]
  · have hkeq : k = l.length := by
      have : k < l.length + 1 := by simpa using hk
      omega
    have hget : (l ++ [v]).get ⟨k, hk⟩ = v := by
      subst hkeq
      simp [List.get_eq_getElem]
    rw [hget] at hc
    subst hkeq
    rw [List.take_left]
    exact hv c hc

/-! ## Unfolding equations for the traversal -/

theorem btAux_zero (g : Graph) (v : Nat) (st : List Nat × List Nat) :
    btAux g 0 v st = .error .fuelOut := rfl

theorem btAux_succ (g : Graph) (fuel : Nat) (v : Nat) (topo vis : List Nat) :
    btAux g (fuel + 1) v (topo, vis) =
      if topo.length > TOPO_LIMIT then .error .runtimeErr
      else if v ∈ vis then .ok (topo, vis)
      else
        match btList g fuel (ops g v) (topo, v :: vis) with
        | .error e => .error e
        | .ok st' => .ok (st'.1 ++ [v], st'.2) := rfl

theorem btList_nil (g : Graph) (fuel : Nat) (st : List Nat × List Nat) :
    btList g fuel [] st = .ok st := rfl

theorem btList_cons (g : Graph) (fuel : Nat) (c : Nat) (cs : List Nat)
    (st : List Nat × List Nat) :
    btList g fuel (c :: cs) st =
      match btAux g fuel c st with
      | .error e => .error e
      | .ok st' => btList g fuel cs st' := by
  unfold btList
  rw [List.foldlM_cons]
  rcases btAux g fuel c st with e | st' <;> rfl

/-! ## Correctness of `build_topo` on arena graphs -/

/-- Invariant of a `(topo, visited)` traversal state. -/
structure BtInv (g : Graph) (topo vis : List Nat) : Prop where
  nodupT : topo.Nodup
  ordered : OrderOK g topo
  sub : ∀ x ∈ topo, x ∈ vis
  rangeT : ∀ x ∈ topo, x < g.length
  rangeV : ∀ x ∈ vis, x < g.length

/-- What one successful `build_topo(v, ...)` call guarantees. -/
structure BtPost (g : Graph) (v : Nat) (topo vis topo' vis' : List Nat) : Prop where
  ext : ∃ Δ, topo' = topo ++ Δ
  inv : BtInv g topo' vis'
  visMono : ∀ x ∈ vis, x ∈ vis'
  greys : ∀ x, (x ∈ vis' ∧ x ∉ topo') ↔ (x ∈ vis ∧ x ∉ topo)
  memv : v ∈ topo'
  reach : ∀ x ∈ topo', x ∈ topo ∨ Reach g v x
  last : v ∉ vis → ∃ Δ₀, topo' = topo ++ (Δ₀ ++ [v])

theorem BtPost.topoMono {g : Graph} {v : Nat} {topo vis topo' vis' : List Nat}
    (h : BtPost g v topo vis topo' vis') : ∀ x ∈ topo, x ∈ topo' := by
  obtain ⟨Δ, rfl⟩ := h.ext
  intro x hx
  exact List.mem_append_left _ hx

/-- Master lemma: on an arena graph (operands strictly decreasing) whose
node count is within the traversal bound, `build_topo` succeeds given
fuel exceeding the start index, and establishes `BtPost`. -/
theorem btAux_ok (g : Graph) (hDec : DecGraph g) (hlim : g.length ≤ TOPO_LIMIT) :
    ∀ fuel v topo vis, v < fuel → v < g.length → BtInv g topo vis →
      (∀ x ∈ vis, x ∉ topo → v < x) →
      ∃ topo' vis', btAux g fuel v (topo, vis) = .ok (topo', vis') ∧
        BtPost g v topo vis topo' vis' := by
  intro fuel
  induction fuel with
  | zero => intro v topo vis hv; omega
  | succ fuel ih =>
    intro v topo vis hvfuel hvlen hinv hgrey
    have hlen : ¬ topo.length > TOPO_LIMIT :=
      Nat.not_lt.mpr (Nat.le_trans (length_le_of_nodup_lt hinv.nodupT hinv.rangeT) hlim)
    rw [btAux_succ, if_neg hlen]
    by_cases hv : v ∈ vis
    · -- already visited: by the grey bound it must already be in topo
      have hvt : v ∈ topo := by
        by_contra hvt
        exact absurd (hgrey v hv hvt) (by omega)
      rw [if_pos hv]
      refine ⟨topo, vis, rfl, ?_⟩
      exact ⟨⟨[], by simp⟩, hinv, fun x hx => hx, fun x => Iff.rfl, hvt,
        fun x hx => Or.inl hx, fun h => absurd hv h⟩
    · rw [if_neg hv]
      -- the children loop
      have hlist : ∀ cs, (∀ c ∈ cs, c ∈ ops g v) → ∀ topo₂ vis₂,
          BtInv g topo₂ vis₂ → (∀ x ∈ vis₂, x ∉ topo₂ → v ≤ x) →
          ∃ topo₃ vis₃, btList g fuel cs (topo₂, vis₂) = .ok (topo₃, vis₃) ∧
            (∃ Δ, topo₃ = topo₂ ++ Δ) ∧ BtInv g topo₃ vis₃ ∧
            (∀ x ∈ vis₂, x ∈ vis₃) ∧
            (∀ x, (x ∈ vis₃ ∧ x ∉ topo₃) ↔ (x ∈ vis₂ ∧ x ∉ topo₂)) ∧
            (∀ c ∈ cs, c ∈ topo₃) ∧
            (∀ x ∈ topo₃, x ∈ topo₂ ∨ ∃ c ∈ cs, Reach g c x) := by
        intro cs
        induction cs with
        | nil =>
          intro _ topo₂ vis₂ hinv₂ _
          exact ⟨topo₂, vis₂, btList_nil g fuel _, ⟨[], by simp⟩, hinv₂,
            fun x hx => hx, fun x => Iff.rfl, by simp, fun x hx => Or.inl hx⟩
        | cons c cs' ihl =>
          intro hcs topo₂ vis₂ hinv₂ hgrey₂
          have hcv : c < v := hDec v c (hcs c (List.mem_cons_self c cs'))
          have hcfuel : c < fuel := by omega
          have hclen : c < g.length := by omega
          have hcgrey : ∀ x ∈ vis₂, x ∉ topo₂ → c < x := by
            intro x hx hxt
            exact Nat.lt_of_lt_of_le hcv (hgrey₂ x hx hxt)
          obtain ⟨t₃, v₃, heq₃, hpost₃⟩ := ih c topo₂ vis₂ hcfuel hclen hinv₂ hcgrey
          have hgrey₃ : ∀ x ∈ v₃, x ∉ t₃ → v ≤ x := by
            intro x hx hxt
            have := (hpost₃.greys x).mp ⟨hx, hxt⟩
            exact hgrey₂ x this.1 this.2
          obtain ⟨t₄, v₄, heq₄, hext₄, hinv₄, hmono₄, hgreys₄, hmem₄, hreach₄⟩ :=
            ihl (fun c' hc' => hcs c' (List.mem_cons_of_mem c hc')) t₃ v₃
              hpost₃.inv hgrey₃
          refine ⟨t₄, v₄, ?_, ?_, hinv₄, ?_, ?_, ?_, ?_⟩
          · rw [btList_cons, heq₃]
            exact heq₄
          · obtain ⟨Δ₁, rfl⟩ := hpost₃.ext
            obtain ⟨Δ₂, rfl⟩ := hext₄
            exact ⟨Δ₁ ++ Δ₂, by simp⟩
          · intro x hx
            exact hmono₄ x (hpost₃.visMono x hx)
          · intro x
            exact (hgreys₄ x).trans (hpost₃.greys x)
          · intro c' hc'
            rcases List.mem_cons.mp hc' with rfl | hc'
            · obtain ⟨Δ₂, rfl⟩ := hext₄
              exact List.mem_append_left _ hpost₃.memv
            · exact hmem₄ c' hc'
          · intro x hx
            rcases hreach₄ x hx with hx₃ | ⟨c', hc', hr⟩
            · rcases hpost₃.reach x hx₃ with hx₂ | hr
              · exact Or.inl hx₂
              · exact Or.inr ⟨c, List.mem_cons_self c cs', hr⟩
            · exact Or.inr ⟨c', List.mem_cons_of_mem c hc', hr⟩
      -- apply the loop lemma to the children of v
      have hinv₂ : BtInv g topo (v :: vis) :=
        ⟨hinv.nodupT, hinv.ordered, fun x hx => List.mem_cons_of_mem v (hinv.sub x hx),
         hinv.rangeT, by
           intro x hx
           rcases List.mem_cons.mp hx with rfl | hx
           · exact hvlen
           · exact hinv.rangeV x hx⟩
      have hgrey₂ : ∀ x ∈ v :: vis, x ∉ topo → v ≤ x := by
        intro x hx hxt
        rcases List.mem_cons.mp hx with rfl | hx
        · exact Nat.le_refl _
        · exact Nat.le_of_lt (hgrey x hx hxt)
      obtain ⟨tF, vF, heqF, hextF, hinvF, hmonoF, hgreysF, hmemF, hreachF⟩ :=
        hlist (ops g v) (fun c hc => hc) topo (v :: vis) hinv₂ hgrey₂
      have hvnt : v ∉ topo := fun hvt => hv (hinv.sub v hvt)
      have hvF : v ∈ vF ∧ v ∉ tF :=
        (hgreysF v).mpr ⟨List.mem_cons_self v vis, hvnt⟩
      refine ⟨tF ++ [v], vF, ?_, ?_⟩
      · rw [heqF]
      · obtain ⟨Δ, hΔ⟩ := hextF
        refine ⟨⟨Δ ++ [v], by rw [hΔ, List.append_assoc]⟩, ?_, ?_, ?_, ?_, ?_, ?_⟩
        · -- the new invariant
          refine ⟨?_, ?_, ?_, ?_, hinvF.rangeV⟩
          · exact hinvF.nodupT.append (List.nodup_singleton v)
              (by simpa [List.disjoint_singleton] using hvF.2)
          · exact orderOK_append_one hinvF.ordered hmemF
          · intro x hx
            rcases List.mem_append.mp hx with hx | hx
            · exact hinvF.sub x hx
            · rw [List.mem_singleton.mp hx]
              exact hvF.1
          · intro x hx
            rcases List.mem_append.mp hx with hx | hx
            · exact hinvF.rangeT x hx
            · rw [List.mem_singleton.mp hx]
              exact hvlen
        · intro x hx
          exact hmonoF x (List.mem_cons_of_mem v hx)
        · intro x
          constructor
          · rintro ⟨hxv, hxt⟩
            have hxtF : x ∉ tF := fun h => hxt (List.mem_append_left _ h)
            have := (hgreysF x).mp ⟨hxv, hxtF⟩
            rcases List.mem_cons.mp this.1 with rfl | hx
            · exact absurd (List.mem_append_right _ (List.mem_singleton.mpr rfl)) hxt
            · exact ⟨hx, this.2⟩
          · rintro ⟨hxv, hxt⟩
            have hne : x ≠ v := fun h => hv (h ▸ hxv)
            have := (hgreysF x).mpr ⟨List.mem_cons_of_mem v hxv, hxt⟩
            refine ⟨this.1, fun hc => ?_⟩
            rcases List.mem_append.mp hc with hc | hc
            · exact this.2 hc
            · exact hne (List.mem_singleton.mp hc)
        · exact List.mem_append_right _ (List.mem_singleton.mpr rfl)
        · intro x hx
          rcases List.mem_append.mp hx with hx | hx
          · rcases hreachF x hx with hx₂ | ⟨c, hc, hr⟩
            · exact Or.inl hx₂
            · exact Or.inr (Reach.head hc hr)
          · rw [List.mem_singleton.mp hx]
            exact Or.inr (Reach.refl v)
        · intro _
          exact ⟨Δ, by rw [hΔ, List.append_assoc]⟩

/-- Top-level run of `build_topo` from a terminal `t` of an arena graph:
it succeeds with the fuel `backward` supplies, and the resulting `topo`
is a duplicate-free post-order enumeration of exactly the nodes reachable
from `t`, ending in `t` itself. -/
theorem btAux_run (g : Graph) (t : Nat) (hDec : DecGraph g) (ht : t < g.length)
    (hlim : g.length ≤ TOPO_LIMIT) :
    ∃ topo vis, btAux g (g.length + 1) t ([], []) = .ok (topo, vis) ∧
      topo.Nodup ∧ OrderOK g topo ∧ (∀ x, x ∈ topo ↔ Reach g t x) ∧
      (∀ x ∈ topo, x < g.length) ∧ ∃ Δ₀, topo = Δ₀ ++ [t] := by
  have hinv : BtInv g [] [] :=
    ⟨List.nodup_nil, orderOK_nil g, by simp, by simp, by simp⟩
  obtain ⟨topo, vis, heq, hpost⟩ :=
    btAux_ok g hDec hlim (g.length + 1) t [] [] (by omega) ht hinv (by simp)
  refine ⟨topo, vis, heq, hpost.inv.nodupT, hpost.inv.ordered, ?_, hpost.inv.rangeT, ?_⟩
  · intro x
    constructor
    · intro hx
      rcases hpost.reach x hx with hx | hr
      · cases hx
      · exact hr
    · intro hr
      exact reach_mem_of_closed (orderOK_closed hpost.inv.ordered) hpost.memv hr
  · obtain ⟨Δ₀, hΔ₀⟩ := hpost.last (by simp)
    exact ⟨Δ₀, by simpa using hΔ₀⟩

/-- With the same hypotheses, `backward` succeeds and runs the gradient
phase on that `topo`. -/
theorem backward_run (g : Graph) (t : Nat) (hDec : DecGraph g) (ht : t < g.length)
    (hlim : g.length ≤ TOPO_LIMIT) :
    ∃ topo vis, btAux g (g.length + 1) t ([], []) = .ok (topo, vis) ∧
      backward g t = .ok (backwardFrom g t topo) ∧
      topo.Nodup ∧ OrderOK g topo ∧ (∀ x, x ∈ topo ↔ Reach g t x) ∧
      (∀ x ∈ topo, x < g.length) ∧ ∃ Δ₀, topo = Δ₀ ++ [t] := by
  obtain ⟨topo, vis, heq, h₁, h₂, h₃, h₄, h₅⟩ := btAux_run g t hDec ht hlim
  exact ⟨topo, vis, heq, by rw [backward, heq], h₁, h₂, h₃, h₄, h₅⟩

/-! ## Shape preservation through the gradient phase -/

/-- Two graphs with identical node count, forward values, operand lists
and local gradients (they may differ only in `grad` fields). -/
def sameShape (g h : Graph) : Prop :=
  g.length = h.length ∧ ∀ v, (nodeAt g v).data = (nodeAt h v).data ∧
    (nodeAt g v).operands = (nodeAt h v).operands ∧
    (nodeAt g v).localGrads = (nodeAt h v).localGrads

theorem sameShape_refl (g : Graph) : sameShape g g :=
  ⟨rfl, fun _ => ⟨rfl, rfl, rfl⟩⟩

theorem sameShape_trans {g h k : Graph} (h₁ : sameShape g h) (h₂ : sameShape h k) :
    sameShape g k :=
  ⟨h₁.1.trans h₂.1, fun v =>
    ⟨(h₁.2 v).1.trans (h₂.2 v).1, (h₁.2 v).2.1.trans ((h₂.2 v).2.1),
     (h₁.2 v).2.2.trans ((h₂.2 v).2.2)⟩⟩

theorem sameShape_ops {g h : Graph} (hs : sameShape g h) (v : Nat) :
    ops g v = ops h v := (hs.2 v).2.1

theorem sameShape_lgrads {g h : Graph} (hs : sameShape g h) (v : Nat) :
    lgrads g v = lgrads h v := (hs.2 v).2.2

theorem sameShape_dataAt {g h : Graph} (hs : sameShape g h) (v : Nat) :
    dataAt g v = dataAt h v := (hs.2 v).1

theorem sameShape_setG (g : Graph) (i : Nat) (f : ℚ → ℚ) :
    sameShape g (setG g i f) := by
  refine ⟨(setG_length g i f).symm, fun v => ?_⟩
  rcases Nat.lt_or_ge i g.length with hi | hi
  · by_cases hv : v = i
    · subst hv
      rw [nodeAt_setG_self g v f hi]
      exact ⟨rfl, rfl, rfl⟩
    · rw [nodeAt_setG_ne g i v f hv]
      exact ⟨rfl, rfl, rfl⟩
  · rw [nodeAt_setG_oob g i v f hi]
    exact ⟨rfl, rfl, rfl⟩

theorem sameShape_applyEdge (h : Graph) (e : Nat × Nat) :
    sameShape h (applyEdge h e) := by
  unfold applyEdge
  rcases hop : (nodeAt h e.1).operands.get? e.2 with _ | c
  · exact sameShape_refl h
  · rcases hlg : (nodeAt h e.1).localGrads.get? e.2 with _ | lg
    · exact sameShape_refl h
    · exact sameShape_setG h c _

theorem sameShape_foldl {α : Type} (f : Graph → α → Graph)
    (hf : ∀ h x, sameShape h (f h x)) :
    ∀ (l : List α) (h : Graph), sameShape h (l.foldl f h) := by
  intro l
  induction l with
  | nil => intro h; exact sameShape_refl h
  | cons x xs ih =>
    intro h
    exact sameShape_trans (hf h x) (ih (f h x))

theorem sameShape_processNode (h : Graph) (v : Nat) :
    sameShape h (processNode h v) :=
  sameShape_foldl _ (fun h' i => sameShape_applyEdge h' (v, i)) _ h

theorem sameShape_backwardFrom (g : Graph) (t : Nat) (topo : List Nat) :
    sameShape g (backwardFrom g t topo) :=
  sameShape_trans (sameShape_setG g t _)
    (sameShape_foldl _ sameShape_processNode _ _)

theorem sameShape_backward {g g' : Graph} {t : Nat} (h : backward g t = .ok g') :
    sameShape g g' := by
  unfold backward at h
  rcases heq : btAux g (g.length + 1) t ([], []) with e | ⟨topo, vis⟩
  · rw [heq] at h; cases h
  · rw [heq] at h
    cases h
    exact sameShape_backwardFrom g t topo

/-- `DecGraph` only depends on the shape. -/
theorem DecGraph_of_sameShape {g h : Graph} (hs : sameShape g h) (hd : DecGraph g) :
    DecGraph h := by
  intro i c hc
  exact hd i c (by rwa [sameShape_ops hs])

/-- `build_topo` reads only the shape of the graph. -/
theorem btAux_congr {g h : Graph} (hs : sameShape g h) :
    ∀ fuel v st, btAux g fuel v st = btAux h fuel v st := by
  intro fuel
  induction fuel with
  | zero => intro v st; rw [btAux_zero, btAux_zero]
  | succ fuel ih =>
    have hlist : ∀ cs st, btList g fuel cs st = btList h fuel cs st := by
      intro cs
      induction cs with
      | nil => intro st; rw [btList_nil, btList_nil]
      | cons c cs' ihl =>
        intro st
        rw [btList_cons, btList_cons, ih c st]
        rcases btAux h fuel c st with e | st'
        · rfl
        · exact ihl st'
    intro v st
    obtain ⟨topo, vis⟩ := st
    rw [btAux_succ, btAux_succ, sameShape_ops hs, hlist]

/-! ## Gradient bookkeeping through the processing loop -/

theorem gradAt_setG_self {g : Graph} {i : Nat} (f : ℚ → ℚ) (h : i < g.length) :
    gradAt (setG g i f) i = f (gradAt g i) := by
  unfold gradAt
  rw [nodeAt_setG_self g i f h]

theorem gradAt_setG_ne {g : Graph} {i j : Nat} (f : ℚ → ℚ) (h : j ≠ i) :
    gradAt (setG g i f) j = gradAt g j := by
  unfold gradAt
  rw [nodeAt_setG_ne g i j f h]

theorem ops_eq (g : Graph) (i : Nat) : (nodeAt g i).operands = ops g i := rfl

theorem lgrads_eq (g : Graph) (i : Nat) : (nodeAt g i).localGrads = lgrads g i := rfl

theorem applyEdge_opNone {h : Graph} {v i : Nat}
    (hop : (nodeAt h v).operands.get? i = none) : applyEdge h (v, i) = h := by
  unfold applyEdge
  rw [hop]

theorem applyEdge_lgNone {h : Graph} {v i c : Nat}
    (hop : (nodeAt h v).operands.get? i = some c)
    (hlg : (nodeAt h v).localGrads.get? i = none) : applyEdge h (v, i) = h := by
  unfold applyEdge
  rw [hop, hlg]

theorem applyEdge_some {h : Graph} {v i c : Nat} {lg : ℚ}
    (hop : (nodeAt h v).operands.get? i = some c)
    (hlg : (nodeAt h v).localGrads.get? i = some lg) :
    applyEdge h (v, i) = setG h c (fun o => o + lg * gradAt h v) := by
  unfold applyEdge
  rw [hop, hlg]

/-- A node that is not an operand of `v` keeps its gradient through one
edge application of `v`. -/
theorem applyEdge_gradAt_not_target {h : Graph} {v i j : Nat}
    (hj : j ∉ (nodeAt h v).operands) :
    gradAt (applyEdge h (v, i)) j = gradAt h j := by
  rcases hop : (nodeAt h v).operands.get? i with _ | c
  · rw [applyEdge_opNone hop]
  · rcases hlg : (nodeAt h v).localGrads.get? i with _ | lg
    · rw [applyEdge_lgNone hop hlg]
    · have hc : c ∈ (nodeAt h v).operands := List.get?_mem hop
      rw [applyEdge_some hop hlg]
      exact gradAt_setG_ne _ (fun hjc => hj (hjc ▸ hc))

/-- A node that is not an operand of `v` keeps its gradient through the
whole inner loop for `v`. -/
theorem processNode_gradAt_not_operand {g h : Graph} {v j : Nat}
    (hs : sameShape g h) (hj : j ∉ ops g v) :
    gradAt (processNode h v) j = gradAt h j := by
  unfold processNode
  have main : ∀ (l : List Nat) (h' : Graph), sameShape g h' →
      gradAt (l.foldl (fun h'' i => applyEdge h'' (v, i)) h') j = gradAt h' j := by
    intro l
    induction l with
    | nil => intro h' _; rfl
    | cons i l' ihl =>
      intro h' hs'
      have hj' : j ∉ (nodeAt h' v).operands := by
        rw [ops_eq, ← sameShape_ops hs']
        exact hj
      rw [List.foldl_cons, ihl _ (sameShape_trans hs' (sameShape_applyEdge h' (v, i)))]
      exact applyEdge_gradAt_not_target hj'
  exact main _ _ hs

/-- A node that is an operand of no processed node keeps its gradient
through a run of the outer loop. -/
theorem foldl_processNode_gradAt {g : Graph} {j : Nat} :
    ∀ (l : List Nat) (h : Graph), sameShape g h → (∀ v ∈ l, j ∉ ops g v) →
      gradAt (l.foldl processNode h) j = gradAt h j := by
  intro l
  induction l with
  | nil => intro h _ _; rfl
  | cons v l' ihl =>
    intro h hs hl
    rw [List.foldl_cons,
      ihl _ (sameShape_trans hs (sameShape_processNode h v))
        (fun u hu => hl u (List.mem_cons_of_mem v hu)),
      processNode_gradAt_not_operand hs (hl v (List.mem_cons_self v l'))]

/-- Processing a node with no operands changes nothing. -/
theorem processNode_leaf {g h : Graph} {v : Nat} (hs : sameShape g h)
    (hleaf : ops g v = []) : processNode h v = h := by
  unfold processNode
  have : (nodeAt h v).operands = [] := by
    rw [ops_eq, ← sameShape_ops hs, hleaf]
  rw [this]
  rfl

/-- A run of the outer loop over leaves changes nothing. -/
theorem foldl_processNode_leaves {g : Graph} :
    ∀ (l : List Nat) (h : Graph), sameShape g h → (∀ v ∈ l, ops g v = []) →
      l.foldl processNode h = h := by
  intro l
  induction l with
  | nil => intro h _ _; rfl
  | cons v l' ihl =>
    intro h hs hl
    rw [List.foldl_cons, processNode_leaf hs (hl v (List.mem_cons_self v l')),
      ihl h hs (fun u hu => hl u (List.mem_cons_of_mem v hu))]

/-- The total local-gradient weight that the inner loop of node `v` sends
to operand `c`: the sum of `local_grads[i]` over the positions `i` in `l`
whose operand is `c`. -/
def contribAux (opsL : List Nat) (lgsL : List ℚ) (c : Nat) (l : List Nat) : ℚ :=
  (l.map (fun i => if opsL.get? i = some c then (lgsL.get? i).getD 0 else 0)).sum

/-- Exact effect of the inner loop on the gradient of an operand `c` of a
node `v` that is not its own operand: the old gradient plus the summed
local-gradient weight times `v`'s (unchanged) gradient. -/
theorem foldl_applyEdge_gradAt {v c : Nat} {opsL : List Nat} {lgsL : List ℚ} :
    ∀ (l : List Nat) (h : Graph), (nodeAt h v).operands = opsL →
      (nodeAt h v).localGrads = lgsL → v ∉ opsL → c ≠ v → c < h.length →
      gradAt (l.foldl (fun h'' i => applyEdge h'' (v, i)) h) c =
        gradAt h c + contribAux opsL lgsL c l * gradAt h v := by
  intro l
  induction l with
  | nil =>
    intro h _ _ _ _ _
    simp [contribAux]
  | cons i l' ihl =>
    intro h hops hlgs hvv hcv hclen
    rw [List.foldl_cons]
    have hstep : (nodeAt (applyEdge h (v, i)) v).operands = opsL ∧
        (nodeAt (applyEdge h (v, i)) v).localGrads = lgsL ∧
        (applyEdge h (v, i)).length = h.length ∧
        gradAt (applyEdge h (v, i)) v = gradAt h v ∧
        gradAt (applyEdge h (v, i)) c = gradAt h c +
          (if opsL.get? i = some c then (lgsL.get? i).getD 0 else 0) * gradAt h v := by
      rcases hop : (nodeAt h v).operands.get? i with _ | c'
      · rw [applyEdge_opNone hop]
        rw [hops] at hop
        refine ⟨hops, hlgs, rfl, rfl, ?_⟩
        rw [hop]
        simp
      · rcases hlg : (nodeAt h v).localGrads.get? i with _ | lg
        · rw [applyEdge_lgNone hop hlg]
          rw [hlgs] at hlg
          refine ⟨hops, hlgs, rfl, rfl, ?_⟩
          rw [hlg]
          simp only [Option.getD_none]
          split <;> ring
        · have hc'mem : c' ∈ (nodeAt h v).operands := List.get?_mem hop
          have hc'v : c' ≠ v := by
            intro hcc
            rw [hops] at hc'mem
            exact hvv (hcc ▸ hc'mem)
          rw [applyEdge_some hop hlg]
          have hshape := sameShape_setG h c' (fun o => o + lg * gradAt h v)
          rw [hops] at hop
          rw [hlgs] at hlg
          refine ⟨?_, ?_, setG_length h c' _,
            gradAt_setG_ne _ (Ne.symm hc'v), ?_⟩
          · rw [ops_eq, ← sameShape_ops hshape, ← ops_eq]
            exact hops
          · rw [lgrads_eq, ← sameShape_lgrads hshape, ← lgrads_eq]
            exact hlgs
          · rw [hop, hlg]
            by_cases hcc : c' = c
            · subst hcc
              rw [if_pos rfl, gradAt_setG_self _ hclen]
              simp
            · have hne : ¬ (some c' = some c) := fun hsome => hcc (Option.some.inj hsome)
              rw [if_neg hne, gradAt_setG_ne _ (fun hx => hcc hx.symm)]
              ring
    obtain ⟨h₁, h₂, h₃, h₄, h₅⟩ := hstep
    rw [ihl (applyEdge h (v, i)) h₁ h₂ hvv hcv (by omega), h₅, h₄]
    unfold contribAux
    simp only [List.map_cons, List.sum_cons]
    ring

/-! ## The processing phase as a single pass over the edge list -/

/-- The inner loop of one node is exactly a fold of `applyEdge` over its
edge list. -/
theorem processNode_eq_edges {g h : Graph} (hs : sameShape g h) (v : Nat) :
    processNode h v = (edgesOf g v).foldl applyEdge h := by
  unfold processNode edgesOf
  rw [List.foldl_map]
  have : (nodeAt h v).operands.length = (ops g v).length := by
    rw [ops_eq, ← sameShape_ops hs]
  rw [this]

/-- The outer loop is exactly a fold of `applyEdge` over the
concatenation of all processed nodes' edge lists. -/
theorem foldl_processNode_flat {g : Graph} :
    ∀ (l : List Nat) (h : Graph), sameShape g h →
      l.foldl processNode h = (l.flatMap (edgesOf g)).foldl applyEdge h := by
  intro l
  induction l with
  | nil => intro h _; rfl
  | cons v l' ihl =>
    intro h hs
    rw [List.foldl_cons, List.flatMap_cons, List.foldl_append,
      ← processNode_eq_edges hs v,
      ihl _ (sameShape_trans hs (sameShape_processNode h v))]

/-- The whole gradient phase: seed the terminal and apply every edge of
the reversed order once, in sequence. -/
theorem backwardFrom_flat (g : Graph) (t : Nat) (topo : List Nat) :
    backwardFrom g t topo =
      (topo.reverse.flatMap (edgesOf g)).foldl applyEdge (setG g t (fun _ => 1)) := by
  unfold backwardFrom
  exact foldl_processNode_flat _ _ (sameShape_setG g t _)

/-- Counting an edge pair in the image of a duplicate-free index list. -/
theorem count_pairs_map (x v i : Nat) : ∀ (l : List Nat), l.Nodup →
    ((l.map (fun j => (x, j))).count (v, i)) = if x = v ∧ i ∈ l then 1 else 0 := by
  intro l
  induction l with
  | nil => intro _; simp
  | cons a l' ihl =>
    intro hnd
    rw [List.map_cons]
    have hal : a ∉ l' := (List.nodup_cons.mp hnd).1
    rw [List.count_cons, ihl (List.nodup_cons.mp hnd).2]
    by_cases hxv : x = v
    · subst hxv
      by_cases hia : i = a
      · subst hia
        simp [hal]
      · have : ¬ ((x, a) = (x, i)) := fun hc => hia (congrArg Prod.snd hc).symm
        simp [hia, fun h : i = a => hia h, this]
    · have : ¬ ((x, a) = (v, i)) := fun hc => hxv (congrArg Prod.fst hc)
      simp [hxv, this]

/-- How many times the edge `(v, i)` occurs in one node's edge list. -/
theorem count_edgesOf (g : Graph) (x v i : Nat) :
    (edgesOf g x).count (v, i) = if x = v ∧ i < (ops g x).length then 1 else 0 := by
  unfold edgesOf
  rw [count_pairs_map x v i _ (List.nodup_range _)]
  simp [List.mem_range]

/-- Each edge of a duplicate-free node list occurs exactly once in the
concatenated edge list: reachable edges once, others never. -/
theorem count_flat_edges (g : Graph) :
    ∀ l : List Nat, l.Nodup → ∀ v i,
      (l.flatMap (edgesOf g)).count (v, i) =
        if v ∈ l ∧ i < (ops g v).length then 1 else 0 := by
  intro l
  induction l with
  | nil =>
    intro _ v i
    simp
  | cons x xs ihl =>
    intro hnd v i
    have hx : x ∉ xs := (List.nodup_cons.mp hnd).1
    have hxs : xs.Nodup := (List.nodup_cons.mp hnd).2
    rw [List.flatMap_cons, List.count_append, count_edgesOf, ihl hxs]
    by_cases hxv : x = v
    · subst hxv
      simp [hx]
    · have hvx : ¬ (v = x) := fun h => hxv h.symm
      simp [hxv, hvx, List.mem_cons]

/-- Positional form of the post-order invariant: an operand occurs at a
strictly smaller position than its consumer. -/
theorem orderOK_get_lt {g : Graph} {l : List Nat} (hnd : l.Nodup)
    (h : OrderOK g l) {i j : Nat} (hi : i < l.length) (hj : j < l.length)
    (hmem : l.get ⟨j, hj⟩ ∈ ops g (l.get ⟨i, hi⟩)) : j < i := by
  have htake := h i hi _ hmem
  obtain ⟨m, hm, hmeq⟩ := List.mem_take_iff_getElem.mp htake
  have : l.get ⟨m, by omega⟩ = l.get ⟨j, hj⟩ := by
    rw [List.get_eq_getElem, List.get_eq_getElem]
    exact hmeq
  have := (List.Nodup.get_inj_iff hnd).mp this
  have : m = j := congrArg Fin.val this
  omega

/-- The same fact on the processing (reversed) order: a node that lists
`w` as operand is processed strictly before `w`. -/
theorem orderOK_reverse_lt {g : Graph} {l : List Nat} (hnd : l.Nodup)
    (h : OrderOK g l) {i j : Nat} (hi : i < l.reverse.length)
    (hj : j < l.reverse.length)
    (hmem : l.reverse.get ⟨j, hj⟩ ∈ ops g (l.reverse.get ⟨i, hi⟩)) : i < j := by
  have hi' : i < l.length := by simpa using hi
  have hj' : j < l.length := by simpa using hj
  have hgi : l.reverse.get ⟨i, hi⟩ = l.get ⟨l.length - 1 - i, by omega⟩ := by
    rw [List.get_eq_getElem, List.get_eq_getElem]
    exact List.getElem_reverse hi
  have hgj : l.reverse.get ⟨j, hj⟩ = l.get ⟨l.length - 1 - j, by omega⟩ := by
    rw [List.get_eq_getElem, List.get_eq_getElem]
    exact List.getElem_reverse hj
  rw [hgi, hgj] at hmem
  have := orderOK_get_lt hnd h (by omega) (by omega) hmem
  omega

/-- An out-of-range index denotes the default node, which has no
operands. -/
theorem ops_oob (g : Graph) (i : Nat) (h : g.length ≤ i) : ops g i = [] := by
  unfold ops nodeAt
  rw [List.getD_eq_default _ _ h]
  rfl

/-- `DecGraph` reduces to a bounded (decidable) check. -/
theorem decGraph_iff (g : Graph) :
    DecGraph g ↔ ∀ i, i < g.length → ∀ c ∈ ops g i, c < i := by
  constructor
  · intro h i _ c hc
    exact h i c hc
  · intro h i c hc
    rcases Nat.lt_or_ge i g.length with hi | hi
    · exact h i hi c hc
    · rw [ops_oob g i hi] at hc
      cases hc

/-! ## Appending factory nodes preserves the arena invariant -/

theorem nodeAt_append_self (g : Graph) (x : Node) :
    nodeAt (g ++ [x]) g.length = x := by
  rw [nodeAt_append_right g [x] g.length (Nat.le_refl _), Nat.sub_self]
  rfl

theorem ops_append_lt (g tail : Graph) (i : Nat) (h : i < g.length) :
    ops (g ++ tail) i = ops g i := by
  unfold ops
  rw [nodeAt_append_lt g tail i h]

theorem dataAt_append_lt (g tail : Graph) (i : Nat) (h : i < g.length) :
    dataAt (g ++ tail) i = dataAt g i := by
  unfold dataAt
  rw [nodeAt_append_lt g tail i h]

theorem gradAt_append_lt (g tail : Graph) (i : Nat) (h : i < g.length) :
    gradAt (g ++ tail) i = gradAt g i := by
  unfold gradAt
  rw [nodeAt_append_lt g tail i h]

/-- Appending one node whose operands point strictly below the append
position keeps the graph an arena graph. -/
theorem decGraph_append_one {g : Graph} (hDec : DecGraph g) (x : Node)
    (hx : ∀ c ∈ x.operands, c < g.length) : DecGraph (g ++ [x]) := by
  intro i c hc
  rcases Nat.lt_trichotomy i g.length with hi | rfl | hi
  · rw [ops_append_lt g [x] i hi] at hc
    exact hDec i c hc
  · unfold ops at hc
    rw [nodeAt_append_self] at hc
    exact hx c hc
  · rw [ops_oob _ i (by simp; omega)] at hc
    cases hc

/-- Nothing reachable from below the append position can list the new
node (or any index at or above the old length) as operand. -/
theorem reach_head_cases {g : Graph} {u w : Nat} (h : Reach g u w) :
    w = u ∨ ∃ c ∈ ops g u, Reach g c w := by
  cases h with
  | refl => exact Or.inl rfl
  | head hc hr => exact Or.inr ⟨_, hc, hr⟩

/-! ## Claim C1 -/

/-- **C1.** For a terminal of an arena graph (operand indices strictly
decreasing — the form every graph built through the factories has, and
the way "the reachable graph is a finite DAG" manifests here) whose node
count is within the traversal bound, `backward` succeeds, and:
the post-order `topo` lists each reachable node exactly once (`Nodup` +
the membership characterization + unit count in the processing order
`topo.reverse`); the processing order is topological — a node that lists
`w` among its operands is processed strictly before `w`; and the gradient
phase is one sequential pass (`foldl applyEdge`) over an edge list that
contains each edge `(v, i)` of each reachable node exactly once, so each
contribution `local_grads[i] * v.grad` is added to `operands[i].grad`
exactly once. -/
theorem C1_backward_topological_order (g : Graph) (t : Nat) (hDec : DecGraph g)
    (ht : t < g.length) (hlim : g.length ≤ TOPO_LIMIT) :
    ∃ topo vis,
      btAux g (g.length + 1) t ([], []) = .ok (topo, vis) ∧
      backward g t = .ok (backwardFrom g t topo) ∧
      topo.Nodup ∧
      (∀ v, v ∈ topo ↔ Reach g t v) ∧
      (∀ v, Reach g t v → topo.reverse.count v = 1) ∧
      (∀ i j (hi : i < topo.reverse.length) (hj : j < topo.reverse.length),
          topo.reverse.get ⟨j, hj⟩ ∈ ops g (topo.reverse.get ⟨i, hi⟩) → i < j) ∧
      backwardFrom g t topo =
        (topo.reverse.flatMap (edgesOf g)).foldl applyEdge (setG g t (fun _ => 1)) ∧
      (∀ v i, (topo.reverse.flatMap (edgesOf g)).count (v, i) =
          if v ∈ topo ∧ i < (ops g v).length then 1 else 0) := by
  obtain ⟨topo, vis, heq, hbk, hnd, hord, hiff, _, _⟩ :=
    backward_run g t hDec ht hlim
  refine ⟨topo, vis, heq, hbk, hnd, hiff, ?_, ?_, backwardFrom_flat g t topo, ?_⟩
  · intro v hr
    exact List.count_eq_one_of_mem (List.nodup_reverse.mpr hnd)
      (List.mem_reverse.mpr ((hiff v).mpr hr))
  · intro i j hi hj hmem
    exact orderOK_reverse_lt hnd hord hi hj hmem
  · intro v i
    rw [count_flat_edges g topo.reverse (List.nodup_reverse.mpr hnd) v i]
    simp only [List.mem_reverse]

/-- The fan-out graph `a` (data 3), `c = a * a` (data 9, both operand
slots pointing at `a`, local grads `{3, 3}`) used by concrete witnesses. -/
def gFan : Graph := [⟨3, 0, [], []⟩, ⟨9, 0, [0, 0], [3, 3]⟩]

/-- Concrete witness for C1 on the two-node fan-out graph. -/
theorem C1_backward_topological_order_witness :
    ∃ topo vis,
      btAux gFan (gFan.length + 1) 1 ([], []) = .ok (topo, vis) ∧
      backward gFan 1 = .ok (backwardFrom gFan 1 topo) ∧
      topo.Nodup ∧
      (∀ v, v ∈ topo ↔ Reach gFan 1 v) ∧
      (∀ v, Reach gFan 1 v → topo.reverse.count v = 1) ∧
      (∀ i j (hi : i < topo.reverse.length) (hj : j < topo.reverse.length),
          topo.reverse.get ⟨j, hj⟩ ∈ ops gFan (topo.reverse.get ⟨i, hi⟩) → i < j) ∧
      backwardFrom gFan 1 topo =
        (topo.reverse.flatMap (edgesOf gFan)).foldl applyEdge
          (setG gFan 1 (fun _ => 1)) ∧
      (∀ v i, (topo.reverse.flatMap (edgesOf gFan)).count (v, i) =
          if v ∈ topo ∧ i < (ops gFan v).length then 1 else 0) :=
  C1_backward_topological_order gFan 1 ((decGraph_iff gFan).mpr (by decide))
    (by decide) (by decide)

/-! ## A wide DAG the traversal bound rejects

`build_topo` checks `topo.size() > 100000` at every recursive entry.
Along a deep chain `topo` only grows while the recursion unwinds, so no
entry ever sees a large `topo`; but for a terminal with many operands the
loop re-enters `build_topo` once per child with `topo` already grown, so
a terminal with `100002` leaf operands trips the bound.  Such a graph is
a perfectly well-formed finite DAG, yet `backward` rejects it. -/

/-- `n` leaves followed by one terminal (index `n`) that lists every leaf
as an operand with local gradient 1. -/
def wideG (n : Nat) : Graph :=
  (List.range n).map (fun _ => ⟨1, 0, [], []⟩) ++ [⟨1, 0, List.range n, List.replicate n 1⟩]

theorem wideG_length (n : Nat) : (wideG n).length = n + 1 := by
  simp [wideG]

theorem wideG_ops_leaf (n c : Nat) (h : c < n) : ops (wideG n) c = [] := by
  unfold ops nodeAt wideG
  rw [List.getD_eq_getElem?_getD,
    List.getElem?_append_left (by simpa using h), List.getElem?_map]
  simp [List.getElem?_range h]

theorem wideG_ops_top (n : Nat) : ops (wideG n) n = List.range n := by
  unfold ops nodeAt wideG
  rw [List.getD_eq_getElem?_getD,
    List.getElem?_append_right (by simp)]
  simp

theorem wideG_dec (n : Nat) : DecGraph (wideG n) := by
  intro i c hc
  rcases Nat.lt_trichotomy i n with hi | rfl | hi
  · rw [wideG_ops_leaf n i hi] at hc
    cases hc
  · rw [wideG_ops_top] at hc
    exact List.mem_range.mp hc
  · rw [ops_oob (wideG n) i (by rw [wideG_length]; omega)] at hc
    cases hc

/-- Running the children loop over fresh leaf children grows `topo` by
one per child; as soon as some child entry sees `topo` beyond the bound,
the traversal throws. -/
theorem btList_leaves_overflow (g : Graph) :
    ∀ (cs : List Nat) (topo vis : List Nat) (fuel : Nat), 1 ≤ fuel →
      (∀ c ∈ cs, ops g c = []) → cs.Nodup → (∀ c ∈ cs, c ∉ vis) →
      cs ≠ [] → topo.length + cs.length > TOPO_LIMIT + 1 →
      btList g fuel cs (topo, vis) = .error .runtimeErr := by
  intro cs
  induction cs with
  | nil => intro _ _ _ _ _ _ _ hne _; exact absurd rfl hne
  | cons c cs' ihl =>
    intro topo vis fuel hfuel hleaf hnd hfresh _ hcount
    obtain ⟨f, rfl⟩ : ∃ f, fuel = f + 1 := ⟨fuel - 1, by omega⟩
    rw [btList_cons]
    by_cases hlim : topo.length > TOPO_LIMIT
    · rw [btAux_succ, if_pos hlim]
    · have hcv : c ∉ vis := hfresh c (List.mem_cons_self c cs')
      rw [btAux_succ, if_neg hlim, if_neg hcv,
        hleaf c (List.mem_cons_self c cs'), btList_nil]
      have hne' : cs' ≠ [] := by
        intro hc
        subst hc
        simp at hcount
        omega
      refine ihl (topo ++ [c]) (c :: vis) (f + 1) hfuel
        (fun c' hc' => hleaf c' (List.mem_cons_of_mem c hc'))
        (List.nodup_cons.mp hnd).2 ?_ hne' ?_
      · intro c' hc' hmem
        rcases List.mem_cons.mp hmem with rfl | hmem
        · exact (List.nodup_cons.mp hnd).1 hc'
        · exact hfresh c' (List.mem_cons_of_mem c hc') hmem
      · simp only [List.length_append, List.length_singleton]
        simp only [List.length_cons] at hcount
        omega

/-- `backward` on the wide DAG: rejected with the wrapped runtime
error. -/
theorem backward_wideG_err (n : Nat) (hn : TOPO_LIMIT + 2 ≤ n) :
    backward (wideG n) n = .error .runtimeErr := by
  unfold backward
  rw [show (wideG n).length + 1 = (n + 1) + 1 by rw [wideG_length]]
  rw [btAux_succ, if_neg (by simp [TOPO_LIMIT]), if_neg (List.not_mem_nil n),
    wideG_ops_top,
    btList_leaves_overflow (wideG n) (List.range n) [] [n] (n + 1) (by omega)
      (fun c hc => wideG_ops_leaf n c (List.mem_range.mp hc))
      (List.nodup_range n)
      (fun c hc hmem => by
        have := List.mem_range.mp hc
        have := List.mem_singleton.mp hmem
        omega)
      (by
        intro hc
        have : n = 0 := by simpa using congrArg List.length hc
        omega)
      (by simp; omega)]

/-! ## Claim C2 -/

/-- **C2.** For any node `a` (at any position, in any arena graph) with
finite data, zero gradient, and a representable square, building
`c = storage.mul(a, a)` — `a` filling both operand slots — and calling
`c->backward()` leaves `a->grad == 2 * a->data`: the two occurrences of
`a` among `c`'s operands accumulate (`+=`) rather than overwrite. -/
theorem C2_fanout_accumulates (s : Graph) (a : Nat) (hDec : DecGraph s)
    (ha : a < s.length) (hlim : s.length + 1 ≤ TOPO_LIMIT)
    (hgrad : gradAt s a = 0) (hfd : finiteDouble (dataAt s a))
    (hfd2 : finiteDouble (dataAt s a * dataAt s a)) :
    ∃ s' n, ValueStorage.mul s a a = .ok (s', n) ∧ n = s.length ∧
      ∃ g', backward s' n = .ok g' ∧ gradAt g' a = 2 * dataAt s a := by
  set d := dataAt s a with hd
  set cnode : Node := ⟨d * d, 0, [a, a], [d, d]⟩ with hcn
  set s' : Graph := s ++ [cnode] with hs'
  set n := s.length with hn
  have hmul : ValueStorage.mul s a a = .ok (s', n) := by
    simp [ValueStorage.mul, ValueStorage.storeChecked, hfd2, ← hd, hs', hcn, hn]
  have hdec' : DecGraph s' := by
    refine decGraph_append_one hDec cnode ?_
    intro c' hc'
    rcases List.mem_cons.mp hc' with rfl | hc'
    · exact ha
    · rcases List.mem_singleton.mp hc' with rfl
      exact ha
  have hlen' : s'.length = s.length + 1 := by simp [hs']
  have hnlt : n < s'.length := by omega
  obtain ⟨topo, vis, _, hbk, hnd, _, hiff, _, Δ₀, hΔ₀⟩ :=
    backward_run s' n hdec' hnlt (by omega)
  set seed := setG s' n (fun _ => 1) with hseed
  have hcnodeAt : nodeAt s' n = cnode := nodeAt_append_self s cnode
  have hops_n : (nodeAt seed n).operands = [a, a] := by
    rw [hseed, nodeAt_setG_self s' n _ hnlt, hcnodeAt]
  have hlg_n : (nodeAt seed n).localGrads = [d, d] := by
    rw [hseed, nodeAt_setG_self s' n _ hnlt, hcnodeAt]
  have hseed_a : gradAt seed a = 0 := by
    rw [hseed, gradAt_setG_ne _ (by omega : a ≠ n), hs', gradAt_append_lt s _ a ha]
    exact hgrad
  have hseed_n : gradAt seed n = 1 := by
    rw [hseed, gradAt_setG_self _ hnlt]
  have hpn : processNode seed n =
      (List.range 2).foldl (fun h' i => applyEdge h' (n, i)) seed := by
    unfold processNode
    rw [hops_n]
    rfl
  have hg1 : gradAt (processNode seed n) a =
      gradAt seed a + contribAux [a, a] [d, d] a (List.range 2) * gradAt seed n := by
    rw [hpn]
    exact foldl_applyEdge_gradAt (List.range 2) seed hops_n hlg_n
      (by simp; omega) (by omega) (by rw [hseed, setG_length]; omega)
  have hcontrib : contribAux [a, a] [d, d] a (List.range 2) = d + d := by
    simp [contribAux, List.range_succ]
  have hrev : topo.reverse = n :: Δ₀.reverse := by
    rw [hΔ₀]
    simp
  have hbf : backwardFrom s' n topo =
      Δ₀.reverse.foldl processNode (processNode seed n) := by
    unfold backwardFrom
    rw [hrev, List.foldl_cons, ← hseed]
  have hnΔ : n ∉ Δ₀ := by
    intro hc
    rw [hΔ₀] at hnd
    exact (List.nodup_append.mp hnd).2.2 hc (List.mem_singleton.mpr rfl)
  have hstep3 : gradAt (Δ₀.reverse.foldl processNode (processNode seed n)) a =
      gradAt (processNode seed n) a := by
    refine foldl_processNode_gradAt Δ₀.reverse (processNode seed n)
      (sameShape_trans (sameShape_setG s' n _) (sameShape_processNode seed n)) ?_
    intro v hv hc
    have hvΔ : v ∈ Δ₀ := List.mem_reverse.mp hv
    have hvtopo : v ∈ topo := by
      rw [hΔ₀]
      exact List.mem_append_left _ hvΔ
    have hvn : v ≠ n := fun hc' => hnΔ (hc' ▸ hvΔ)
    have hreach : Reach s' n v := (hiff v).mp hvtopo
    rcases reach_head_cases hreach with hc' | ⟨c', hc'mem, hr⟩
    · exact hvn hc'
    · have hops_n' : ops s' n = [a, a] := by
        unfold ops
        rw [hcnodeAt]
      rw [hops_n'] at hc'mem
      have hc'a : c' = a := by
        rcases List.mem_cons.mp hc'mem with rfl | hc'mem
        · rfl
        · exact List.mem_singleton.mp hc'mem
      rw [hc'a] at hr
      have hva : v ≤ a := Reach.le hdec' hr
      have := hdec' v a hc
      omega
  refine ⟨s', n, hmul, rfl, backwardFrom s' n topo, hbk, ?_⟩
  rw [hbf, hstep3, hg1, hcontrib, hseed_a, hseed_n]
  ring

/-- Concrete witness for C2: the single node `a` with data 3; after
`backward` on `a * a` its gradient is `6 = 2 * 3`. -/
theorem C2_fanout_accumulates_witness :
    ∃ s' n, ValueStorage.mul [⟨3, 0, [], []⟩] 0 0 = .ok (s', n) ∧ n = 1 ∧
      ∃ g', backward s' n = .ok g' ∧ gradAt g' 0 = 2 * dataAt [⟨3, 0, [], []⟩] 0 :=
  C2_fanout_accumulates [⟨3, 0, [], []⟩] 0
    ((decGraph_iff _).mpr (by decide)) (by decide) (by decide) rfl
    (by norm_num [finiteDouble, dataAt, nodeAt, DBL_MAX])
    (by norm_num [finiteDouble, dataAt, nodeAt, DBL_MAX])

/-! ## Totality of the traversal on arbitrary in-range graphs

Even on a graph with reference cycles the visited set makes `build_topo`
terminate, and — as long as the node count stays within the bound — no
entry ever sees `topo.size() > 100000`, so the traversal **succeeds**:
cycles are not detected, let alone rejected. -/

theorem btAux_total (g : Graph) (hIR : ∀ i, ∀ c ∈ ops g i, c < g.length)
    (hlim : g.length ≤ TOPO_LIMIT) :
    ∀ fuel v topo vis, g.length + 1 ≤ fuel + vis.length →
      v < g.length → topo.Nodup → (∀ x ∈ topo, x ∈ vis) →
      (∀ x ∈ topo, x < g.length) → vis.Nodup → (∀ x ∈ vis, x < g.length) →
      ∃ topo' vis', btAux g fuel v (topo, vis) = .ok (topo', vis') ∧
        topo'.Nodup ∧ (∀ x ∈ topo', x ∈ vis') ∧ (∀ x ∈ topo', x < g.length) ∧
        vis'.Nodup ∧ (∀ x ∈ vis', x < g.length) ∧ (∀ x ∈ vis, x ∈ vis') ∧
        vis.length ≤ vis'.length ∧ (∀ x ∈ topo', x ∈ topo ∨ x ∉ vis) := by
  intro fuel
  induction fuel with
  | zero =>
    intro v topo vis hcount _ _ _ _ hndV hrangeV
    have := length_le_of_nodup_lt hndV hrangeV
    omega
  | succ fuel ih =>
    intro v topo vis hcount hvlen hndT hsub hrangeT hndV hrangeV
    have hlen : ¬ topo.length > TOPO_LIMIT :=
      Nat.not_lt.mpr (Nat.le_trans (length_le_of_nodup_lt hndT hrangeT) hlim)
    rw [btAux_succ, if_neg hlen]
    by_cases hv : v ∈ vis
    · rw [if_pos hv]
      exact ⟨topo, vis, rfl, hndT, hsub, hrangeT, hndV, hrangeV,
        fun x hx => hx, Nat.le_refl _, fun x hx => Or.inl hx⟩
    · rw [if_neg hv]
      have hlist : ∀ cs, (∀ c ∈ cs, c < g.length) → ∀ topo₂ vis₂,
          g.length + 1 ≤ fuel + vis₂.length → topo₂.Nodup →
          (∀ x ∈ topo₂, x ∈ vis₂) → (∀ x ∈ topo₂, x < g.length) →
          vis₂.Nodup → (∀ x ∈ vis₂, x < g.length) →
          ∃ topo₃ vis₃, btList g fuel cs (topo₂, vis₂) = .ok (topo₃, vis₃) ∧
            topo₃.Nodup ∧ (∀ x ∈ topo₃, x ∈ vis₃) ∧ (∀ x ∈ topo₃, x < g.length) ∧
            vis₃.Nodup ∧ (∀ x ∈ vis₃, x < g.length) ∧ (∀ x ∈ vis₂, x ∈ vis₃) ∧
            vis₂.length ≤ vis₃.length ∧ (∀ x ∈ topo₃, x ∈ topo₂ ∨ x ∉ vis₂) := by
        intro cs
        induction cs with
        | nil =>
          intro _ topo₂ vis₂ _ h₁ h₂ h₃ h₄ h₅
          exact ⟨topo₂, vis₂, btList_nil g fuel _, h₁, h₂, h₃, h₄, h₅,
            fun x hx => hx, Nat.le_refl _, fun x hx => Or.inl hx⟩
        | cons c cs' ihl =>
          intro hcs topo₂ vis₂ hcount₂ h₁ h₂ h₃ h₄ h₅
          obtain ⟨t₃, v₃, heq₃, k₁, k₂, k₃, k₄, k₅, k₆, k₇, k₈⟩ :=
            ih c topo₂ vis₂ (by omega) (hcs c (List.mem_cons_self c cs')) h₁ h₂ h₃ h₄ h₅
          obtain ⟨t₄, v₄, heq₄, m₁, m₂, m₃, m₄, m₅, m₆, m₇, m₈⟩ :=
            ihl (fun c' hc' => hcs c' (List.mem_cons_of_mem c hc')) t₃ v₃
              (by omega) k₁ k₂ k₃ k₄ k₅
          refine ⟨t₄, v₄, ?_, m₁, m₂, m₃, m₄, m₅, ?_, by omega, ?_⟩
          · rw [btList_cons, heq₃]
            exact heq₄
          · intro x hx
            exact m₆ x (k₆ x hx)
          · intro x hx
            rcases m₈ x hx with hx₃ | hx₃
            · exact k₈ x hx₃
            · exact Or.inr (fun hc => hx₃ (k₆ x hc))
      have hvis₂ : (v :: vis).Nodup := List.nodup_cons.mpr ⟨hv, hndV⟩
      obtain ⟨tF, vF, heqF, m₁, m₂, m₃, m₄, m₅, m₆, m₇, m₈⟩ :=
        hlist (ops g v) (fun c hc => hIR v c hc) topo (v :: vis)
          (by simp only [List.length_cons]; omega) hndT
          (fun x hx => List.mem_cons_of_mem v (hsub x hx)) hrangeT hvis₂
          (by
            intro x hx
            rcases List.mem_cons.mp hx with rfl | hx
            · exact hvlen
            · exact hrangeV x hx)
      have hvtF : v ∉ tF := by
        intro hc
        rcases m₈ v hc with hc' | hc'
        · exact hv (hsub v hc')
        · exact hc' (List.mem_cons_self v vis)
      rw [heqF]
      refine ⟨tF ++ [v], vF, rfl, ?_, ?_, ?_, m₄, m₅, ?_, ?_, ?_⟩
      · exact m₁.append (List.nodup_singleton v)
          (by simpa [List.disjoint_singleton] using hvtF)
      · intro x hx
        rcases List.mem_append.mp hx with hx | hx
        · exact m₂ x hx
        · rw [List.mem_singleton.mp hx]
          exact m₆ v (List.mem_cons_self v vis)
      · intro x hx
        rcases List.mem_append.mp hx with hx | hx
        · exact m₃ x hx
        · rw [List.mem_singleton.mp hx]
          exact hvlen
      · intro x hx
        exact m₆ x (List.mem_cons_of_mem v hx)
      · have : (v :: vis).length ≤ vF.length := m₇
        simp only [List.length_cons] at this
        omega
      · intro x hx
        rcases List.mem_append.mp hx with hx | hx
        · rcases m₈ x hx with hx' | hx'
          · exact Or.inl hx'
          · exact Or.inr (fun hc => hx' (List.mem_cons_of_mem v hc))
        · rw [List.mem_singleton.mp hx]
          exact Or.inr hv

/-- In-range-ness reduces to a bounded (decidable) check. -/
theorem inRange_iff (g : Graph) :
    (∀ i, ∀ c ∈ ops g i, c < g.length) ↔
      ∀ i, i < g.length → ∀ c ∈ ops g i, c < g.length := by
  constructor
  · intro h i _ c hc
    exact h i c hc
  · intro h i c hc
    rcases Nat.lt_or_ge i g.length with hi | hi
    · exact h i hi c hc
    · rw [ops_oob g i hi] at hc
      cases hc

/-! ## Claim C4 (corrected) -/

/-- **C4** (amended): `backward` never infinite-loops and never rejects
any graph — cyclic or not — whose operand references stay in range and
whose node count is at most the bound `100000`: it returns successfully.
A reference cycle is therefore NOT rejected (see the counterexample); the
only rejection `build_topo` can produce is the `topo.size() > 100000`
check at a recursive entry. -/
theorem C4_backward_total_within_bound (g : Graph) (t : Nat)
    (hIR : ∀ i, ∀ c ∈ ops g i, c < g.length) (ht : t < g.length)
    (hlim : g.length ≤ TOPO_LIMIT) :
    ∃ g', backward g t = .ok g' := by
  obtain ⟨topo, vis, heq, _⟩ :=
    btAux_total g hIR hlim (g.length + 1) t [] [] (by simp) ht List.nodup_nil
      (by simp) (by simp) List.nodup_nil (by simp)
  exact ⟨backwardFrom g t topo, by rw [backward, heq]⟩

/-- The two-node reference cycle: node 0 lists node 1 as operand and vice
versa (not constructible through the factories, which only reference
earlier nodes, but expressible as raw graph data). -/
def gCyc : Graph := [⟨1, 0, [1], [1]⟩, ⟨1, 0, [0], [1]⟩]

/-- Counterexample for **C4**: the reachable graph of terminal 0 contains
a reference cycle, yet `backward` does not reject it — it completes
normally (the visited set merely prevents the infinite loop). -/
theorem C4_counterexample_cycle_not_rejected :
    1 ∈ ops gCyc 0 ∧ 0 ∈ ops gCyc 1 ∧
      backward gCyc 0 = .ok [⟨1, 2, [1], [1]⟩, ⟨1, 1, [0], [1]⟩] := by
  refine ⟨by decide, by decide, ?_⟩
  norm_num [backward, btAux_succ, btList_cons, btList_nil, backwardFrom,
    processNode, applyEdge, setG, gradAt, nodeAt, ops, gCyc, TOPO_LIMIT,
    List.range_succ]

/-- Concrete witness for the amended C4 on the cyclic graph. -/
theorem C4_backward_total_within_bound_witness :
    ∃ g', backward gCyc 0 = .ok g' :=
  C4_backward_total_within_bound gCyc 0 ((inRange_iff gCyc).mpr (by decide))
    (by decide) (by decide)

/-! ## Claim C10 (corrected) -/

/-- **C10** (amended): for a terminal of an arena DAG within the
traversal bound, `backward` succeeds and leaves `terminal->grad` at
exactly `1`: the seed `grad = 1.0` is a plain assignment that overwrites
whatever gradient the terminal held before (note the absence of any
hypothesis on the terminal's initial `grad`), and no processed edge can
point back at the terminal, so the value survives the whole pass.  The
`+=` accumulation applies only to operand nodes. -/
theorem C10_terminal_grad_overwritten (g : Graph) (t : Nat) (hDec : DecGraph g)
    (ht : t < g.length) (hlim : g.length ≤ TOPO_LIMIT) :
    ∃ g', backward g t = .ok g' ∧ gradAt g' t = 1 := by
  obtain ⟨topo, vis, _, hbk, _, _, hiff, _, _⟩ := backward_run g t hDec ht hlim
  refine ⟨backwardFrom g t topo, hbk, ?_⟩
  unfold backwardFrom
  rw [foldl_processNode_gradAt topo.reverse (setG g t (fun _ => 1))
    (sameShape_setG g t _) ?_]
  · exact gradAt_setG_self _ ht
  · intro v hv hc
    have hvt : v ≤ t := Reach.le hDec ((hiff v).mp (List.mem_reverse.mp hv))
    have := hDec v t hc
    omega

/-- The fan-out graph with a stale terminal gradient: node 1 starts with
`grad = 5`. -/
def gSeed : Graph := [⟨3, 0, [], []⟩, ⟨9, 5, [0, 0], [3, 3]⟩]

/-- Concrete witness for the amended C10: the stale gradient 5 on the
terminal is overwritten to exactly 1. -/
theorem C10_terminal_grad_overwritten_witness :
    ∃ g', backward gSeed 1 = .ok g' ∧ gradAt g' 1 = 1 :=
  C10_terminal_grad_overwritten gSeed 1 ((decGraph_iff gSeed).mpr (by decide))
    (by decide) (by decide)

/-- Counterexample for **C10** as stated (quantifying over *every* DAG):
on the wide DAG with 100003 leaf operands `backward` throws instead of
setting the terminal gradient — no resulting graph exists at all. -/
theorem C10_counterexample_wide_dag :
    DecGraph (wideG 100003) ∧
      backward (wideG 100003) 100003 = .error .runtimeErr :=
  ⟨wideG_dec 100003, backward_wideG_err 100003 (by decide)⟩

/-- Counterexample for **C1** as stated (quantifying over *every* finite
DAG): the wide DAG with 100002 leaf operands is a finite DAG, yet
`backward` rejects it, so no reachable node is processed at all. -/
theorem C1_counterexample_wide_dag :
    DecGraph (wideG 100002) ∧
      backward (wideG 100002) 100002 = .error .runtimeErr :=
  ⟨wideG_dec 100002, backward_wideG_err 100002 (by decide)⟩

/-! ## What every factory does to the arena -/

/-- A successful operation only appends, and every appended node is born
with `grad = 0`, paired `operands` / `local_grads`, and finite data. -/
def NewNodesOk (s s' : Graph) : Prop :=
  ∃ tail, s' = s ++ tail ∧
    ∀ nd ∈ tail, nd.grad = 0 ∧ nd.operands.length = nd.localGrads.length ∧
      finiteDouble nd.data

theorem NewNodesOk.trans {s s₁ s₂ : Graph} (h₁ : NewNodesOk s s₁)
    (h₂ : NewNodesOk s₁ s₂) : NewNodesOk s s₂ := by
  obtain ⟨t₁, rfl, ht₁⟩ := h₁
  obtain ⟨t₂, rfl, ht₂⟩ := h₂
  refine ⟨t₁ ++ t₂, by simp, ?_⟩
  intro nd hnd
  rcases List.mem_append.mp hnd with hnd | hnd
  · exact ht₁ nd hnd
  · exact ht₂ nd hnd

theorem storeChecked_ok {s : Graph} {d : ℚ} {opsL : List Nat} {lgsL : List ℚ}
    {s' : Graph} {r : Nat}
    (h : ValueStorage.storeChecked s d opsL lgsL = .ok (s', r)) :
    s' = s ++ [⟨d, 0, opsL, lgsL⟩] ∧ r = s.length ∧ finiteDouble d ∧
      opsL.length = lgsL.length := by
  unfold ValueStorage.storeChecked at h
  split_ifs at h with h1 h2
  cases h
  exact ⟨rfl, rfl, h1, h2⟩

theorem storeChecked_newNodes {s : Graph} {d : ℚ} {opsL : List Nat}
    {lgsL : List ℚ} {s' : Graph} {r : Nat}
    (h : ValueStorage.storeChecked s d opsL lgsL = .ok (s', r)) :
    NewNodesOk s s' := by
  obtain ⟨rfl, _, hfin, hpair⟩ := storeChecked_ok h
  refine ⟨_, rfl, ?_⟩
  intro nd hnd
  rcases List.mem_singleton.mp hnd with rfl
  exact ⟨rfl, hpair, hfin⟩

theorem constant_newNodes {s : Graph} {c : ℚ} {s' : Graph} {r : Nat}
    (h : ValueStorage.constant s c = .ok (s', r)) : NewNodesOk s s' :=
  storeChecked_newNodes h

theorem add_newNodes {s : Graph} {a b : Nat} {s' : Graph} {r : Nat}
    (h : ValueStorage.add s a b = .ok (s', r)) : NewNodesOk s s' := by
  unfold ValueStorage.add at h
  split_ifs at h
  exact storeChecked_newNodes h

theorem addC_newNodes {s : Graph} {a : Nat} {c : ℚ} {s' : Graph} {r : Nat}
    (h : ValueStorage.addC s a c = .ok (s', r)) : NewNodesOk s s' := by
  unfold ValueStorage.addC at h
  split_ifs at h
  exact storeChecked_newNodes h

theorem mul_newNodes {s : Graph} {a b : Nat} {s' : Graph} {r : Nat}
    (h : ValueStorage.mul s a b = .ok (s', r)) : NewNodesOk s s' := by
  unfold ValueStorage.mul at h
  split_ifs at h
  exact storeChecked_newNodes h

theorem mulC_newNodes {s : Graph} {a : Nat} {c : ℚ} {s' : Graph} {r : Nat}
    (h : ValueStorage.mulC s a c = .ok (s', r)) : NewNodesOk s s' := by
  unfold ValueStorage.mulC at h
  split_ifs at h
  exact storeChecked_newNodes h

theorem neg_newNodes {s : Graph} {a : Nat} {s' : Graph} {r : Nat}
    (h : ValueStorage.neg s a = .ok (s', r)) : NewNodesOk s s' :=
  mulC_newNodes h

theorem sub_newNodes {s : Graph} {a b : Nat} {s' : Graph} {r : Nat}
    (h : ValueStorage.sub s a b = .ok (s', r)) : NewNodesOk s s' := by
  unfold ValueStorage.sub at h
  rcases hneg : ValueStorage.neg s b with e | ⟨s₁, nb⟩
  · rw [hneg] at h
    cases h
  · rw [hneg] at h
    simp only [Except.instMonad, Except.bind] at h
    exact (neg_newNodes hneg).trans (add_newNodes h)

theorem subC_newNodes {s : Graph} {a : Nat} {c : ℚ} {s' : Graph} {r : Nat}
    (h : ValueStorage.subC s a c = .ok (s', r)) : NewNodesOk s s' :=
  addC_newNodes h

theorem pow_newNodes {E : TransFns} {s : Graph} {a : Nat} {k : ℚ} {s' : Graph}
    {r : Nat} (h : ValueStorage.pow E s a k = .ok (s', r)) : NewNodesOk s s' := by
  unfold ValueStorage.pow at h
  split_ifs at h
  exact storeChecked_newNodes h

theorem div_newNodes {E : TransFns} {s : Graph} {a b : Nat} {s' : Graph}
    {r : Nat} (h : ValueStorage.div E s a b = .ok (s', r)) : NewNodesOk s s' := by
  unfold ValueStorage.div at h
  split_ifs at h
  rcases hpow : ValueStorage.pow E s b (-1) with e | ⟨s₁, bi⟩
  · rw [hpow] at h
    cases h
  · rw [hpow] at h
    simp only [Except.instMonad, Except.bind] at h
    exact (pow_newNodes hpow).trans (mul_newNodes h)

theorem divC_newNodes {s : Graph} {a : Nat} {c : ℚ} {s' : Graph} {r : Nat}
    (h : ValueStorage.divC s a c = .ok (s', r)) : NewNodesOk s s' := by
  unfold ValueStorage.divC at h
  split_ifs at h
  exact mulC_newNodes h

theorem log_newNodes {E : TransFns} {s : Graph} {a : Nat} {s' : Graph} {r : Nat}
    (h : ValueStorage.log E s a = .ok (s', r)) : NewNodesOk s s' := by
  unfold ValueStorage.log at h
  split_ifs at h
  exact storeChecked_newNodes h

theorem exp_newNodes {E : TransFns} {s : Graph} {a : Nat} {s' : Graph} {r : Nat}
    (h : ValueStorage.exp E s a = .ok (s', r)) : NewNodesOk s s' := by
  unfold ValueStorage.exp at h
  split_ifs at h
  exact storeChecked_newNodes h

theorem relu_newNodes {s : Graph} {a : Nat} {s' : Graph} {r : Nat}
    (h : ValueStorage.relu s a = .ok (s', r)) : NewNodesOk s s' :=
  storeChecked_newNodes h

/-- Any successful factory call only appends well-formed new nodes. -/
theorem applyCall_newNodes (E : TransFns) (s : Graph) (call : Fcall)
    (s' : Graph) (r : Nat) (h : applyCall E s call = .ok (s', r)) :
    NewNodesOk s s' := by
  cases call with
  | constant c => exact constant_newNodes h
  | add a b => exact add_newNodes h
  | addC a c => exact addC_newNodes h
  | mul a b => exact mul_newNodes h
  | mulC a c => exact mulC_newNodes h
  | neg a => exact neg_newNodes h
  | sub a b => exact sub_newNodes h
  | subC a c => exact subC_newNodes h
  | powc a k => exact pow_newNodes h
  | div a b => exact div_newNodes h
  | divC a c => exact divC_newNodes h
  | log a => exact log_newNodes h
  | exp a => exact exp_newNodes h
  | relu a => exact relu_newNodes h

/-- Values within `2^100` are comfortably finite doubles. -/
theorem finiteDouble_small {q : ℚ} (h : |q| ≤ 2 ^ 100) : finiteDouble q := by
  unfold finiteDouble DBL_MAX
  refine le_trans h ?_
  norm_num

theorem finiteDouble_one : finiteDouble 1 :=
  finiteDouble_small (by rw [abs_one]; norm_num)

/-! ## Claim C8 -/

/-- **C8.** Every node any `ValueStorage` factory (`constant`, `add`,
`sub`, `mul`, `div`, `neg`, `pow`, `log`, `exp`, `relu`, including the
scalar overloads) appends, is born with `grad = 0` and with
`operands.size() == local_grads.size()`; and no operation disturbs this
pairing for any node already present. -/
theorem C8_factory_node_invariants (E : TransFns) (s : Graph) (call : Fcall)
    (s' : Graph) (r : Nat) (h : applyCall E s call = .ok (s', r)) :
    (∀ i, s.length ≤ i → i < s'.length →
      (nodeAt s' i).grad = 0 ∧
        (nodeAt s' i).operands.length = (nodeAt s' i).localGrads.length) ∧
    ((∀ nd ∈ s, nd.operands.length = nd.localGrads.length) →
      ∀ nd ∈ s', nd.operands.length = nd.localGrads.length) := by
  obtain ⟨tail, rfl, htail⟩ := applyCall_newNodes E s call _ r h
  constructor
  · intro i hi hi'
    rw [nodeAt_append_right s tail i hi]
    have hj : i - s.length < tail.length := by
      simp only [List.length_append] at hi'
      omega
    unfold nodeAt
    rw [List.getD_eq_getElem _ _ hj]
    have := htail _ (List.getElem_mem hj)
    exact ⟨this.1, this.2.1⟩
  · intro hs nd hnd
    rcases List.mem_append.mp hnd with hnd | hnd
    · exact hs nd hnd
    · exact (htail nd hnd).2.1

/-- Concrete witness for C8: `constant 1` on the empty arena. -/
theorem C8_factory_node_invariants_witness :
    (∀ i, ([] : Graph).length ≤ i → i < ([⟨1, 0, [], []⟩] : Graph).length →
      (nodeAt [⟨1, 0, [], []⟩] i).grad = 0 ∧
        (nodeAt [⟨1, 0, [], []⟩] i).operands.length =
          (nodeAt [⟨1, 0, [], []⟩] i).localGrads.length) ∧
    ((∀ nd ∈ ([] : Graph), nd.operands.length = nd.localGrads.length) →
      ∀ nd ∈ ([⟨1, 0, [], []⟩] : Graph),
        nd.operands.length = nd.localGrads.length) :=
  C8_factory_node_invariants TransFns.triv [] (.constant 1) [⟨1, 0, [], []⟩] 0
    (by simp [applyCall, ValueStorage.constant, ValueStorage.storeChecked,
      finiteDouble_one])

/-! ## Claim C9 -/

/-- **C9.** Appending through `store` (hence through every factory) never
invalidates or relocates an existing node: the arena after a successful
call extends the old contents on the right, so every previously returned
index is still in range and denotes the very same node.  (The C++
counterpart — the `std::deque` guarantee that `push_back` never moves
existing elements — is the memory-level reading of this statement.) -/
theorem C9_reference_stability (E : TransFns) (s : Graph) (call : Fcall)
    (s' : Graph) (r : Nat) (h : applyCall E s call = .ok (s', r)) :
    (∃ tail, s' = s ++ tail) ∧ ∀ i, i < s.length → nodeAt s' i = nodeAt s i := by
  obtain ⟨tail, rfl, _⟩ := applyCall_newNodes E s call _ r h
  exact ⟨⟨tail, rfl⟩, fun i hi => nodeAt_append_lt s tail i hi⟩

/-- Concrete witness for C9: `addC` on the fan-out arena leaves nodes 0
and 1 untouched. -/
theorem C9_reference_stability_witness :
    (∃ tail, gFan ++ [⟨4, 0, [0], [1]⟩] = gFan ++ tail) ∧
      ∀ i, i < gFan.length →
        nodeAt (gFan ++ [⟨4, 0, [0], [1]⟩]) i = nodeAt gFan i :=
  C9_reference_stability TransFns.triv gFan (.addC 0 1)
    (gFan ++ [⟨4, 0, [0], [1]⟩]) 2
    (by
      have h4 : finiteDouble (4 : ℚ) := finiteDouble_small (by norm_num)
      norm_num [applyCall, ValueStorage.addC, ValueStorage.storeChecked,
        finiteDouble_one, h4, gFan, dataAt, nodeAt])

/-! ## Claim C3 -/

/-- **C3.** The domain guards sit at the very top of each factory,
before any node is constructed: `log` rejects any non-positive argument,
`pow` rejects a negative base with a non-integer exponent and a zero base
with a negative exponent, and `div` (both overloads) rejects a divisor
whose magnitude is below machine epsilon — each with the distinguishable
`std::domain_error`.  The `.error` results mean the call returns without
touching the arena: no node is constructed and the storage contents are
unchanged (in the source, every one of these `throw`s precedes the first
`store`). -/
theorem C3_domain_guards (E : TransFns) (s : Graph) :
    (∀ a, dataAt s a ≤ 0 → ValueStorage.log E s a = .error .domainErr) ∧
    (∀ a k, finiteDouble k → dataAt s a < 0 → ¬ isIntQ k →
      ValueStorage.pow E s a k = .error .domainErr) ∧
    (∀ a k, finiteDouble k → dataAt s a = 0 → k < 0 →
      ValueStorage.pow E s a k = .error .domainErr) ∧
    (∀ a b, |dataAt s b| < DBL_EPSILON →
      ValueStorage.div E s a b = .error .domainErr) ∧
    (∀ a c, |c| < DBL_EPSILON → ValueStorage.divC s a c = .error .domainErr) := by
  refine ⟨?_, ?_, ?_, ?_, ?_⟩
  · intro a h
    unfold ValueStorage.log
    rw [if_pos h]
  · intro a k hk hneg hint
    unfold ValueStorage.pow
    rw [if_pos hk, if_pos ⟨hneg, hint⟩]
  · intro a k hk hzero hkneg
    unfold ValueStorage.pow
    have hnotneg : ¬ (dataAt s a < 0 ∧ ¬ isIntQ k) := by
      rintro ⟨hlt, _⟩
      rw [hzero] at hlt
      exact lt_irrefl 0 hlt
    rw [if_pos hk, if_neg hnotneg, if_pos ⟨hzero, hkneg⟩]
  · intro a b h
    unfold ValueStorage.div
    rw [if_pos h]
  · intro a c h
    unfold ValueStorage.divC
    rw [if_pos h]

/-- Concrete witness for C3: `log(-1)`, `pow(-1, 1/2)`, `pow(0, -1)`,
`div` by a zero node and `div` by the scalar `0` all fail with the domain
error, leaving the storage untouched. -/
theorem C3_domain_guards_witness :
    ValueStorage.log TransFns.triv [⟨-1, 0, [], []⟩, ⟨0, 0, [], []⟩] 0 =
      .error .domainErr ∧
    ValueStorage.pow TransFns.triv [⟨-1, 0, [], []⟩, ⟨0, 0, [], []⟩] 0 (1 / 2) =
      .error .domainErr ∧
    ValueStorage.pow TransFns.triv [⟨-1, 0, [], []⟩, ⟨0, 0, [], []⟩] 1 (-1) =
      .error .domainErr ∧
    ValueStorage.div TransFns.triv [⟨-1, 0, [], []⟩, ⟨0, 0, [], []⟩] 0 1 =
      .error .domainErr ∧
    ValueStorage.divC [⟨-1, 0, [], []⟩, ⟨0, 0, [], []⟩] 0 0 =
      .error .domainErr := by
  have h := C3_domain_guards TransFns.triv [⟨-1, 0, [], []⟩, ⟨0, 0, [], []⟩]
  refine ⟨h.1 0 (by norm_num [dataAt, nodeAt]),
    h.2.1 0 (1 / 2) (finiteDouble_small (by norm_num [abs_le]))
      (by norm_num [dataAt, nodeAt]) (by norm_num [isIntQ]),
    h.2.2.1 1 (-1) (finiteDouble_small (by norm_num [abs_le]))
      (by norm_num [dataAt, nodeAt]) (by norm_num),
    h.2.2.2.1 0 1 (by norm_num [dataAt, nodeAt, DBL_EPSILON]),
    h.2.2.2.2 0 0 (by norm_num [DBL_EPSILON])⟩

/-! ## Claim C6 -/

theorem DBL_MAX_pos : (0 : ℚ) < DBL_MAX := by
  rw [DBL_MAX]
  norm_num

/-- `exp` stays representable below the code's conservative `700.0`
threshold (the true overflow point is ≈ 709.78). -/
theorem real_exp_le_dblmax {x : ℝ} (hx : x ≤ 700) :
    Real.exp x ≤ ((DBL_MAX : ℚ) : ℝ) := by
  have h1 : Real.exp x ≤ Real.exp 700 := Real.exp_le_exp.mpr hx
  have h2 : Real.exp 700 = Real.exp 1 ^ 700 := by
    rw [← Real.exp_nat_mul]
    norm_num
  have h3 : Real.exp 1 ^ 700 ≤ (2.7182818286 : ℝ) ^ 700 :=
    pow_le_pow_left₀ (Real.exp_pos 1).le Real.exp_one_lt_d9.le 700
  have h4 : (2.7182818286 : ℝ) ^ 700 ≤ ((DBL_MAX : ℚ) : ℝ) := by
    rw [show ((DBL_MAX : ℚ) : ℝ) = ((2 : ℝ) ^ 53 - 1) * 2 ^ 971 by
      rw [DBL_MAX]; push_cast; ring]
    norm_num
  linarith

/-- `exp 800` genuinely overflows the double range. -/
theorem real_exp_800_gt : ((DBL_MAX : ℚ) : ℝ) < Real.exp 800 := by
  have h2 : Real.exp 800 = Real.exp 1 ^ 800 := by
    rw [← Real.exp_nat_mul]
    norm_num
  have h3 : (2.7182818283 : ℝ) ^ 800 ≤ Real.exp 1 ^ 800 :=
    pow_le_pow_left₀ (by norm_num) Real.exp_one_gt_d9.le 800
  have h4 : ((DBL_MAX : ℚ) : ℝ) < (2.7182818283 : ℝ) ^ 800 := by
    rw [show ((DBL_MAX : ℚ) : ℝ) = ((2 : ℝ) ^ 53 - 1) * 2 ^ 971 by
      rw [DBL_MAX]; push_cast; ring]
    norm_num
  linarith

/-- **C6.** With assertion failures modelled as rejections (the
repository's builds keep `assert` active): `add` rejects a sum beyond
the double range in either direction — explicitly (`overflow_error`) for
positive overflow, via the constructor's `isfinite` assert for negative
overflow; `mul` rejects any non-representable product via its assert;
`exp` rejects every input whose exponential would exceed the double
range (its `> 700` guard is conservative: `ln(DBL_MAX) ≈ 709.78`); and
no factory ever returns successfully having stored a node with
non-finite data. -/
theorem C6_overflow_guards (E : TransFns) (s : Graph) :
    (∀ a b, finiteDouble (dataAt s a) → finiteDouble (dataAt s b) →
      DBL_MAX < dataAt s a + dataAt s b →
      ValueStorage.add s a b = .error .overflowErr) ∧
    (∀ a b, dataAt s a + dataAt s b < -DBL_MAX →
      ValueStorage.add s a b = .error .assertFail) ∧
    (∀ a b, ¬ finiteDouble (dataAt s a * dataAt s b) →
      ValueStorage.mul s a b = .error .assertFail) ∧
    (∀ a, ((DBL_MAX : ℚ) : ℝ) < Real.exp ((dataAt s a : ℚ) : ℝ) →
      ValueStorage.exp E s a = .error .overflowErr) ∧
    (∀ call s' r, applyCall E s call = .ok (s', r) →
      (∀ nd ∈ s, finiteDouble nd.data) → ∀ nd ∈ s', finiteDouble nd.data) := by
  refine ⟨?_, ?_, ?_, ?_, ?_⟩
  · intro a b hfa hfb hsum
    obtain ⟨hfa₁, hfa₂⟩ := abs_le.mp hfa
    obtain ⟨hfb₁, hfb₂⟩ := abs_le.mp hfb
    unfold ValueStorage.add
    rw [if_pos ⟨by linarith, by linarith, by linarith⟩]
  · intro a b hsum
    have hmax := DBL_MAX_pos
    unfold ValueStorage.add ValueStorage.storeChecked
    rw [if_neg, if_neg]
    · intro hfin
      obtain ⟨hf₁, _⟩ := abs_le.mp hfin
      linarith
    · rintro ⟨ha, hb, _⟩
      linarith
  · intro a b hprod
    unfold ValueStorage.mul
    rw [if_neg hprod]
  · intro a hbig
    unfold ValueStorage.exp
    have h700 : (700 : ℚ) < dataAt s a := by
      by_contra hc
      push_neg at hc
      have hcast : ((dataAt s a : ℚ) : ℝ) ≤ 700 := by
        exact_mod_cast hc
      exact absurd hbig (not_lt.mpr (real_exp_le_dblmax hcast))
    rw [if_pos h700]
  · intro call s' r h hs
    obtain ⟨tail, rfl, htail⟩ := applyCall_newNodes E s call _ r h
    intro nd hnd
    rcases List.mem_append.mp hnd with hnd | hnd
    · exact hs nd hnd
    · exact (htail nd hnd).2.2

/-- The arena of extreme but finite values used by the C6 witness. -/
def gBig : Graph :=
  [⟨DBL_MAX, 0, [], []⟩, ⟨DBL_MAX, 0, [], []⟩, ⟨-DBL_MAX, 0, [], []⟩,
   ⟨800, 0, [], []⟩]

/-- Concrete witness for C6: `DBL_MAX + DBL_MAX` is rejected explicitly,
`-DBL_MAX + -DBL_MAX` by the constructor assert, `DBL_MAX * DBL_MAX`
by the multiplication assert, `exp(800)` by the overflow guard, and a
successful `constant 1` keeps every stored datum finite. -/
theorem C6_overflow_guards_witness :
    ValueStorage.add gBig 0 1 = .error .overflowErr ∧
    ValueStorage.add gBig 2 2 = .error .assertFail ∧
    ValueStorage.mul gBig 0 0 = .error .assertFail ∧
    ValueStorage.exp TransFns.triv gBig 3 = .error .overflowErr ∧
    ((∀ nd ∈ gBig, finiteDouble nd.data) →
      ∀ nd ∈ gBig ++ [⟨1, 0, [], []⟩], finiteDouble nd.data) := by
  have h := C6_overflow_guards TransFns.triv gBig
  have hfinmax : finiteDouble DBL_MAX := by
    unfold finiteDouble
    rw [abs_of_pos DBL_MAX_pos]
  refine ⟨?_, ?_, ?_, ?_, ?_⟩
  · refine h.1 0 1 ?_ ?_ ?_
    · simpa [dataAt, nodeAt, gBig] using hfinmax
    · simpa [dataAt, nodeAt, gBig] using hfinmax
    · have := DBL_MAX_pos
      simp only [dataAt, nodeAt, gBig]
      norm_num
      linarith
  · refine h.2.1 2 2 ?_
    have := DBL_MAX_pos
    simp only [dataAt, nodeAt, gBig]
    norm_num
    linarith
  · refine h.2.2.1 0 0 ?_
    have hdg : dataAt gBig 0 = DBL_MAX := rfl
    rw [hdg]
    unfold finiteDouble
    rw [abs_of_pos (mul_pos DBL_MAX_pos DBL_MAX_pos), DBL_MAX]
    norm_num
  · refine h.2.2.2.1 3 ?_
    have : dataAt gBig 3 = 800 := rfl
    rw [this]
    have h800 : ((800 : ℚ) : ℝ) = (800 : ℝ) := by norm_num
    rw [h800]
    exact real_exp_800_gt
  · exact h.2.2.2.2 (.constant 1) (gBig ++ [⟨1, 0, [], []⟩]) 4
      (by simp [applyCall, ValueStorage.constant, ValueStorage.storeChecked,
        finiteDouble_one, gBig])

/-! ## Claim C7 (corrected) -/

/-- **C7** (amended): re-running `backward()` without resetting grads
accumulates, but the second pass pushes gradients computed from the
*already accumulated* interior grads, so "every leaf doubles" holds only
when no interior node sits between the terminal and the leaves.  Proved
form: for a terminal all of whose operands are leaves (and start at
gradient 0), the second `backward()` leaves each operand with exactly
twice the gradient it had after the first call.  For deeper graphs the
leaf gradient can more than double (see the counterexample: a 2-chain
leaf triples). -/
theorem C7_double_backward_depth_one (g : Graph) (t : Nat) (hDec : DecGraph g)
    (ht : t < g.length) (hlim : g.length ≤ TOPO_LIMIT)
    (hleaves : ∀ c ∈ ops g t, ops g c = [])
    (hzero : ∀ c ∈ ops g t, gradAt g c = 0) :
    ∃ g₁ g₂, backward g t = .ok g₁ ∧ backward g₁ t = .ok g₂ ∧
      ∀ c ∈ ops g t, gradAt g₂ c = 2 * gradAt g₁ c := by
  obtain ⟨topo, vis, heq, hbk₁, hnd, _, hiff, _, Δ₀, hΔ₀⟩ :=
    backward_run g t hDec ht hlim
  have hΔleaves : ∀ v ∈ Δ₀, ops g v = [] := by
    intro v hv
    have hvt : v ∈ topo := by
      rw [hΔ₀]
      exact List.mem_append_left _ hv
    have hvne : v ≠ t := by
      intro hc
      subst hc
      rw [hΔ₀] at hnd
      exact (List.nodup_append.mp hnd).2.2 hv (List.mem_singleton.mpr rfl)
    rcases reach_head_cases ((hiff v).mp hvt) with hc | ⟨c', hc', hr⟩
    · exact absurd hc hvne
    · have hvc : v = c' := reach_leaf (hleaves c' hc') hr
      rw [hvc]
      exact hleaves c' hc'
  have hrev : topo.reverse = t :: Δ₀.reverse := by
    rw [hΔ₀]
    simp
  have pass : ∀ h : Graph, sameShape g h →
      ∀ c ∈ ops g t, gradAt (backwardFrom h t topo) c =
        gradAt h c + contribAux (ops g t) (lgrads g t) c
          (List.range (ops g t).length) := by
    intro h hs
    have htlen : t < h.length := by
      have := hs.1
      omega
    have hshape₁ : sameShape g (setG h t (fun _ => 1)) :=
      sameShape_trans hs (sameShape_setG h t _)
    have hshape₂ : sameShape g (processNode (setG h t (fun _ => 1)) t) :=
      sameShape_trans hshape₁ (sameShape_processNode _ t)
    have hbf : backwardFrom h t topo = processNode (setG h t (fun _ => 1)) t := by
      unfold backwardFrom
      rw [hrev, List.foldl_cons]
      exact foldl_processNode_leaves Δ₀.reverse _ hshape₂
        (fun v hv => hΔleaves v (List.mem_reverse.mp hv))
    have hops : (nodeAt (setG h t (fun _ => 1)) t).operands = ops g t := by
      rw [nodeAt_setG_self h t _ htlen]
      show (nodeAt h t).operands = ops g t
      rw [ops_eq, ← sameShape_ops hs]
    have hlgs : (nodeAt (setG h t (fun _ => 1)) t).localGrads = lgrads g t := by
      rw [nodeAt_setG_self h t _ htlen]
      show (nodeAt h t).localGrads = lgrads g t
      rw [lgrads_eq, ← sameShape_lgrads hs]
    intro c hc
    have hct : c < t := hDec t c hc
    have hpn : processNode (setG h t (fun _ => 1)) t =
        (List.range (ops g t).length).foldl (fun h' i => applyEdge h' (t, i))
          (setG h t (fun _ => 1)) := by
      unfold processNode
      rw [hops]
    have hvnotin : t ∉ ops g t := fun hcmem => by
      have := hDec t t hcmem
      omega
    have hcneq : c ≠ t := by omega
    have hclen2 : c < (setG h t (fun _ => 1)).length := by
      rw [setG_length]
      omega
    have hfold := foldl_applyEdge_gradAt (List.range (ops g t).length)
      (setG h t (fun _ => 1)) hops hlgs hvnotin hcneq hclen2
    rw [hbf, hpn, hfold, gradAt_setG_ne _ (by omega : c ≠ t),
      gradAt_setG_self _ htlen, mul_one]
  set g₁ := backwardFrom g t topo with hg₁
  have hs₁ : sameShape g g₁ := sameShape_backwardFrom g t topo
  have hlen₁ : g₁.length = g.length := hs₁.1.symm
  have hbt₁ : btAux g₁ (g₁.length + 1) t ([], []) = .ok (topo, vis) := by
    rw [hlen₁, ← btAux_congr hs₁]
    exact heq
  have hbk₂ : backward g₁ t = .ok (backwardFrom g₁ t topo) := by
    rw [backward, hbt₁]
  refine ⟨g₁, backwardFrom g₁ t topo, hbk₁, hbk₂, ?_⟩
  intro c hc
  have h₁ := pass g (sameShape_refl g) c hc
  have h₂ := pass g₁ hs₁ c hc
  rw [← hg₁] at h₁
  rw [h₂, h₁, hzero c hc]
  ring

/-- Concrete witness for the amended C7: on `a`, `c = a * a`, the second
`backward()` doubles `a`'s gradient (from 6 to 12). -/
theorem C7_double_backward_depth_one_witness :
    ∃ g₁ g₂, backward gFan 1 = .ok g₁ ∧ backward g₁ 1 = .ok g₂ ∧
      ∀ c ∈ ops gFan 1, gradAt g₂ c = 2 * gradAt g₁ c :=
  C7_double_backward_depth_one gFan 1 ((decGraph_iff gFan).mpr (by decide))
    (by decide) (by decide) (by decide)
    (by
      intro c hc
      have hc0 : c = 0 := by
        simp [ops, nodeAt, gFan] at hc
        exact hc
      subst hc0
      rfl)

/-- The three-node chain `leaf 0 ← node 1 ← terminal 2`, every local
gradient 1 (e.g. two stacked `relu`s of a positive input). -/
def gChain : Graph := [⟨1, 0, [], []⟩, ⟨1, 0, [0], [1]⟩, ⟨1, 0, [1], [1]⟩]

/-- Counterexample for **C7** as stated: after one `backward()` the leaf
holds gradient 1, but after a second `backward()` without reset it holds
3, not 2 — the interior node's accumulated gradient (2) is pushed down,
so the leaf more than doubles. -/
theorem C7_counterexample_chain_triples :
    backward gChain 2 = .ok [⟨1, 1, [], []⟩, ⟨1, 1, [0], [1]⟩, ⟨1, 1, [1], [1]⟩] ∧
    backward [⟨1, 1, [], []⟩, ⟨1, 1, [0], [1]⟩, ⟨1, 1, [1], [1]⟩] 2 =
      .ok [⟨1, 3, [], []⟩, ⟨1, 2, [0], [1]⟩, ⟨1, 1, [1], [1]⟩] ∧
    (3 : ℚ) ≠ 2 * 1 := by
  refine ⟨?_, ?_, by norm_num⟩ <;>
    norm_num [backward, btAux_succ, btList_cons, btList_nil, backwardFrom,
      processNode, applyEdge, setG, gradAt, nodeAt, ops, gChain, TOPO_LIMIT,
      List.range_succ]

/-! ## Claim C5: the derived composites -/

/-- `backward` on an arena extended by a two-node composite: `mid` (data
`d₁`, one operand `b`, local grad `l3`) and `top` (data `d₂`, operands
`[a, mid]`, local grads `[l1, l2]`), where `a` and `b` are distinct
zero-gradient leaves of the original arena.  The pass leaves
`a.grad = l1` and `b.grad = l3 * l2`. -/
theorem backward_two_chain (s : Graph) (a b : Nat) (d₁ d₂ l1 l2 l3 : ℚ)
    (ha : a < s.length) (hb : b < s.length) (hab : a ≠ b)
    (haleaf : ops s a = []) (hbleaf : ops s b = [])
    (hagrad : gradAt s a = 0) (hbgrad : gradAt s b = 0) :
    ∃ g', backward ((s ++ [⟨d₁, 0, [b], [l3]⟩]) ++
        [⟨d₂, 0, [a, s.length], [l1, l2]⟩]) (s.length + 1) = .ok g' ∧
      gradAt g' a = l1 ∧ gradAt g' b = l3 * l2 := by
  set n := s.length with hn
  set mid : Node := ⟨d₁, 0, [b], [l3]⟩ with hmid
  set top : Node := ⟨d₂, 0, [a, n], [l1, l2]⟩ with htop
  set G : Graph := (s ++ [mid]) ++ [top] with hG
  have hlenG : G.length = n + 2 := by simp [hG]
  have hmidlen : (s ++ [mid]).length = n + 1 := by simp
  -- node lookups
  have hnode_top : nodeAt G (n + 1) = top := by
    rw [hG, show n + 1 = (s ++ [mid]).length by simp]
    exact nodeAt_append_self _ _
  have hnode_mid : nodeAt G n = mid := by
    rw [hG, nodeAt_append_lt _ _ n (by simp)]
    exact nodeAt_append_self s mid
  have hnode_a : nodeAt G a = nodeAt s a := by
    rw [hG, nodeAt_append_lt _ _ a (by simp; omega), nodeAt_append_lt s _ a ha]
  have hnode_b : nodeAt G b = nodeAt s b := by
    rw [hG, nodeAt_append_lt _ _ b (by simp; omega), nodeAt_append_lt s _ b hb]
  have hops_top : ops G (n + 1) = [a, n] := by
    unfold ops
    rw [hnode_top]
  have hops_mid : ops G n = [b] := by
    unfold ops
    rw [hnode_mid]
  have hops_a : ops G a = [] := by
    unfold ops
    rw [hnode_a]
    exact haleaf
  have hops_b : ops G b = [] := by
    unfold ops
    rw [hnode_b]
    exact hbleaf
  -- disequalities
  have hne1 : a ≠ n + 1 := by omega
  have hne2 : n ≠ a := by omega
  have hne3 : n ≠ n + 1 := by omega
  have hne4 : b ≠ n := by omega
  have hne5 : b ≠ a := fun h => hab h.symm
  have hne6 : b ≠ n + 1 := by omega
  -- the traversal, step by step
  have h_a : btAux G (n + 2) a ([], [n + 1]) = .ok ([a], [a, n + 1]) := by
    rw [show n + 2 = (n + 1) + 1 by omega, btAux_succ,
      if_neg (by norm_num [TOPO_LIMIT]),
      if_neg (by simp [List.mem_singleton, hne1]), hops_a, btList_nil]
    rfl
  have h_b : btAux G (n + 1) b ([a], [n, a, n + 1]) =
      .ok ([a, b], [b, n, a, n + 1]) := by
    rw [show n + 1 = n + 1 from rfl, btAux_succ,
      if_neg (by norm_num [TOPO_LIMIT]),
      if_neg (by simp [List.mem_cons, hne4, hne5, hne6]), hops_b, btList_nil]
    rfl
  have h_mid : btAux G (n + 2) n ([a], [a, n + 1]) =
      .ok ([a, b, n], [b, n, a, n + 1]) := by
    rw [show n + 2 = (n + 1) + 1 by omega, btAux_succ,
      if_neg (by norm_num [TOPO_LIMIT]),
      if_neg (by simp [List.mem_cons, hne2, hne3]), hops_mid, btList_cons, h_b]
    rfl
  have htopo : btAux G (G.length + 1) (n + 1) ([], []) =
      .ok ([a, b, n, n + 1], [b, n, a, n + 1]) := by
    rw [hlenG, show n + 2 + 1 = (n + 2) + 1 from rfl, btAux_succ,
      if_neg (by norm_num [TOPO_LIMIT]), if_neg (List.not_mem_nil _), hops_top,
      btList_cons, h_a]
    dsimp only
    rw [btList_cons, h_mid]
    rfl
  have hbk : backward G (n + 1) = .ok (backwardFrom G (n + 1) [a, b, n, n + 1]) := by
    rw [backward, htopo]
  set seed := setG G (n + 1) (fun _ => 1) with hseed
  have hn1len : n + 1 < G.length := by omega
  have hga : gradAt seed a = 0 := by
    rw [hseed, gradAt_setG_ne _ hne1, hG, gradAt_append_lt _ _ a (by simp; omega),
      gradAt_append_lt s _ a ha]
    exact hagrad
  have hgb : gradAt seed b = 0 := by
    rw [hseed, gradAt_setG_ne _ hne6, hG, gradAt_append_lt _ _ b (by simp; omega),
      gradAt_append_lt s _ b hb]
    exact hbgrad
  have hgn : gradAt seed n = 0 := by
    rw [hseed, gradAt_setG_ne _ hne3]
    show (nodeAt G n).grad = 0
    rw [hnode_mid]
  have hgn1 : gradAt seed (n + 1) = 1 := by
    rw [hseed, gradAt_setG_self _ hn1len]
  have hsh_seed : sameShape G seed := sameShape_setG G (n + 1) _
  set G1 := processNode seed (n + 1) with hG1
  have hsh_G1 : sameShape G G1 :=
    sameShape_trans hsh_seed (sameShape_processNode _ _)
  set G2 := processNode G1 n with hG2
  have hsh_G2 : sameShape G G2 :=
    sameShape_trans hsh_G1 (sameShape_processNode _ _)
  have hbf : backwardFrom G (n + 1) [a, b, n, n + 1] = G2 := by
    unfold backwardFrom
    rw [show ([a, b, n, n + 1] : List Nat).reverse = [n + 1, n, b, a] from by simp,
      List.foldl_cons, List.foldl_cons, List.foldl_cons, List.foldl_cons,
      List.foldl_nil, ← hseed, ← hG1, ← hG2,
      processNode_leaf hsh_G2 hops_b, processNode_leaf hsh_G2 hops_a]
  have hops_top_seed : (nodeAt seed (n + 1)).operands = [a, n] := by
    rw [hseed, nodeAt_setG_self _ _ _ hn1len, hnode_top]
  have hlg_top_seed : (nodeAt seed (n + 1)).localGrads = [l1, l2] := by
    rw [hseed, nodeAt_setG_self _ _ _ hn1len, hnode_top]
  have hpn1 : processNode seed (n + 1) =
      (List.range 2).foldl (fun h' i => applyEdge h' (n + 1, i)) seed := by
    unfold processNode
    rw [hops_top_seed]
    rfl
  have hv1 : (n + 1) ∉ ([a, n] : List Nat) := by
    simp [List.mem_cons]
    omega
  have halen_seed : a < seed.length := by
    rw [hseed, setG_length]
    omega
  have hnlen_seed : n < seed.length := by
    rw [hseed, setG_length]
    omega
  have hcontrib_a : contribAux [a, n] [l1, l2] a (List.range 2) = l1 := by
    simp [contribAux, List.range_succ, hne2]
  have hcontrib_n : contribAux [a, n] [l1, l2] n (List.range 2) = l2 := by
    have han : ¬ (a = n) := fun h => hne2 h.symm
    simp [contribAux, List.range_succ, han]
  have hga1 : gradAt G1 a = l1 := by
    rw [hG1, hpn1, foldl_applyEdge_gradAt (List.range 2) seed hops_top_seed
      hlg_top_seed hv1 hne1 halen_seed, hga, hgn1, hcontrib_a]
    ring
  have hgn_G1 : gradAt G1 n = l2 := by
    rw [hG1, hpn1, foldl_applyEdge_gradAt (List.range 2) seed hops_top_seed
      hlg_top_seed hv1 hne3 hnlen_seed, hgn, hgn1, hcontrib_n]
    ring
  have hgb_G1 : gradAt G1 b = 0 := by
    rw [hG1, processNode_gradAt_not_operand hsh_seed
      (show b ∉ ops G (n + 1) by rw [hops_top]; simp [hne5, hne4])]
    exact hgb
  have hops_mid_G1 : (nodeAt G1 n).operands = [b] := by
    rw [ops_eq, ← sameShape_ops hsh_G1]
    exact hops_mid
  have hlg_mid_G1 : (nodeAt G1 n).localGrads = [l3] := by
    rw [lgrads_eq, ← sameShape_lgrads hsh_G1]
    show lgrads G n = [l3]
    unfold lgrads
    rw [hnode_mid]
  have hpn2 : processNode G1 n =
      (List.range 1).foldl (fun h' i => applyEdge h' (n, i)) G1 := by
    unfold processNode
    rw [hops_mid_G1]
    rfl
  have hv2 : n ∉ ([b] : List Nat) := by
    simp [List.mem_singleton]
    omega
  have hblen_G1 : b < G1.length := by
    have := hsh_G1.1
    omega
  have hcontrib_b : contribAux [b] [l3] b (List.range 1) = l3 := by
    simp [contribAux, List.range_succ]
  have hgb_G2 : gradAt G2 b = l3 * l2 := by
    rw [hG2, hpn2, foldl_applyEdge_gradAt (List.range 1) G1 hops_mid_G1
      hlg_mid_G1 hv2 hne4 hblen_G1, hgb_G1, hgn_G1, hcontrib_b]
    ring
  have hga_G2 : gradAt G2 a = l1 := by
    rw [hG2, processNode_gradAt_not_operand hsh_G1
      (show a ∉ ops G n by rw [hops_mid]; simp [hab])]
    exact hga1
  refine ⟨G2, ?_, hga_G2, hgb_G2⟩
  rw [hbk, hbf]

/-- A divisor at least epsilon in magnitude has a representable
reciprocal. -/
theorem finiteDouble_inv_of_eps {db : ℚ} (h : DBL_EPSILON ≤ |db|) :
    finiteDouble db⁻¹ := by
  unfold finiteDouble
  rw [abs_inv]
  have heps : (0 : ℚ) < DBL_EPSILON := by norm_num [DBL_EPSILON]
  have h1 : |db|⁻¹ ≤ DBL_EPSILON⁻¹ := inv_anti₀ heps h
  refine le_trans h1 ?_
  norm_num [DBL_EPSILON, DBL_MAX]

/-- ... and a representable `-1 / b²` local gradient. -/
theorem finiteDouble_neg_inv_sq {db : ℚ} (h : DBL_EPSILON ≤ |db|) :
    finiteDouble ((-1 : ℚ) * (db ^ 2)⁻¹) := by
  unfold finiteDouble
  rw [abs_mul, abs_neg, abs_one, one_mul, abs_inv, abs_pow]
  have heps : (0 : ℚ) < DBL_EPSILON := by norm_num [DBL_EPSILON]
  have h1 : (|db| ^ 2)⁻¹ ≤ (DBL_EPSILON ^ 2)⁻¹ := by
    apply inv_anti₀ (by positivity)
    exact pow_le_pow_left₀ heps.le h 2
  refine le_trans h1 ?_
  norm_num [DBL_EPSILON, DBL_MAX]

theorem finiteDouble_neg_one : finiteDouble (-1 : ℚ) := by
  unfold finiteDouble
  rw [abs_neg, abs_one]
  rw [DBL_MAX]
  norm_num

/-- `std::pow(b, -1)` in the model is exactly the reciprocal. -/
theorem powModel_neg_one (E : TransFns) (db : ℚ) :
    powModel E db (-1) = db⁻¹ := by
  unfold powModel
  rw [if_pos (by norm_num), show ((-1 : ℚ)).num = -1 from by norm_num,
    zpow_neg_one]

/-- `std::pow(b, -2)` in the model is exactly `1 / b²`. -/
theorem powModel_neg_two (E : TransFns) (db : ℚ) :
    powModel E db (-1 - 1) = (db ^ 2)⁻¹ := by
  unfold powModel
  rw [if_pos (by norm_num), show ((-1 - 1 : ℚ)).num = -2 from by norm_num,
    show (-2 : ℤ) = -(2 : ℕ) from by norm_num, zpow_neg, zpow_natCast]

/-- **C5.** For distinct zero-gradient leaf nodes `a`, `b` with
`|b.data| ≥ epsilon`, representable data and representable results:
`div(a, b) = mul(a, pow(b, -1))` succeeds, stores its intermediate
reciprocal node and its result node in the same arena (`sD = s ++ [_, _]`),
returns data `a.data / b.data`, and `backward()` on it accumulates
`a.grad = 1 / b.data` and `b.grad = -a.data / b.data²`; likewise
`sub(a, b) = add(a, neg(b))` stores its negation node in the same arena,
returns `a.data - b.data`, and `backward()` gives `a.grad = 1`,
`b.grad = -1` — the spec's gradient table, in exact arithmetic. -/
theorem C5_composites (E : TransFns) (s : Graph) (a b : Nat)
    (ha : a < s.length) (hb : b < s.length) (hab : a ≠ b)
    (haleaf : ops s a = []) (hbleaf : ops s b = [])
    (hagrad : gradAt s a = 0) (hbgrad : gradAt s b = 0)
    (hfb : finiteDouble (dataAt s b))
    (hbmag : DBL_EPSILON ≤ |dataAt s b|)
    (hfinq : finiteDouble (dataAt s a * (dataAt s b)⁻¹))
    (hfinsub : finiteDouble (dataAt s a - dataAt s b)) :
    (∃ sD, ValueStorage.div E s a b = .ok (sD, s.length + 1) ∧
      (∃ nd₁ nd₂, sD = s ++ [nd₁, nd₂]) ∧
      dataAt sD (s.length + 1) = dataAt s a / dataAt s b ∧
      ∃ gD, backward sD (s.length + 1) = .ok gD ∧
        gradAt gD a = 1 / dataAt s b ∧
        gradAt gD b = -(dataAt s a) / (dataAt s b) ^ 2) ∧
    (∃ sS, ValueStorage.sub s a b = .ok (sS, s.length + 1) ∧
      (∃ nd₁ nd₂, sS = s ++ [nd₁, nd₂]) ∧
      dataAt sS (s.length + 1) = dataAt s a - dataAt s b ∧
      ∃ gS, backward sS (s.length + 1) = .ok gS ∧
        gradAt gS a = 1 ∧ gradAt gS b = -1) := by
  have hdbne : dataAt s b ≠ 0 := by
    intro h0
    rw [h0, abs_zero] at hbmag
    norm_num [DBL_EPSILON] at hbmag
  have hq := powModel_neg_one E (dataAt s b)
  have hq2 := powModel_neg_two E (dataAt s b)
  have hfin_q : finiteDouble (powModel E (dataAt s b) (-1)) := by
    rw [hq]
    exact finiteDouble_inv_of_eps hbmag
  have hfin_lg : finiteDouble ((-1 : ℚ) * powModel E (dataAt s b) (-1 - 1)) := by
    rw [hq2]
    exact finiteDouble_neg_inv_sq hbmag
  constructor
  · -- division
    have hpow_eq : ValueStorage.pow E s b (-1) =
        .ok (s ++ [⟨powModel E (dataAt s b) (-1), 0, [b],
          [(-1 : ℚ) * powModel E (dataAt s b) (-1 - 1)]⟩], s.length) := by
      unfold ValueStorage.pow ValueStorage.storeChecked
      rw [if_pos finiteDouble_neg_one,
        if_neg (fun hc => hc.2 (by norm_num [isIntQ])),
        if_neg (fun hc => hdbne hc.1),
        if_pos hfin_q, if_pos hfin_lg, if_pos hfin_q, if_pos (by simp)]
    have hda1 : dataAt (s ++ [⟨powModel E (dataAt s b) (-1), 0, [b],
        [(-1 : ℚ) * powModel E (dataAt s b) (-1 - 1)]⟩]) a = dataAt s a :=
      dataAt_append_lt s _ a ha
    have hdb1 : dataAt (s ++ [⟨powModel E (dataAt s b) (-1), 0, [b],
        [(-1 : ℚ) * powModel E (dataAt s b) (-1 - 1)]⟩]) s.length =
        powModel E (dataAt s b) (-1) := by
      unfold dataAt
      rw [nodeAt_append_self]
    have hfin_prod : finiteDouble (dataAt s a * powModel E (dataAt s b) (-1)) := by
      rw [hq]
      exact hfinq
    have hdiv_eq : ValueStorage.div E s a b =
        .ok ((s ++ [⟨powModel E (dataAt s b) (-1), 0, [b],
            [(-1 : ℚ) * powModel E (dataAt s b) (-1 - 1)]⟩]) ++
          [⟨dataAt s a * powModel E (dataAt s b) (-1), 0, [a, s.length],
            [powModel E (dataAt s b) (-1), dataAt s a]⟩], s.length + 1) := by
      unfold ValueStorage.div
      rw [if_neg (not_lt.mpr hbmag), hpow_eq]
      simp only [Except.instMonad, Except.bind]
      unfold ValueStorage.mul ValueStorage.storeChecked
      have hlen1 : (s ++ [(⟨powModel E (dataAt s b) (-1), 0, [b],
          [(-1 : ℚ) * powModel E (dataAt s b) (-1 - 1)]⟩ : Node)]).length =
          s.length + 1 := by simp
      rw [hda1, hdb1, if_pos hfin_prod, if_pos hfin_prod, if_pos (by simp),
        hlen1]
    obtain ⟨gD, hbkD, hgaD, hgbD⟩ := backward_two_chain s a b
      (powModel E (dataAt s b) (-1))
      (dataAt s a * powModel E (dataAt s b) (-1))
      (powModel E (dataAt s b) (-1)) (dataAt s a)
      ((-1 : ℚ) * powModel E (dataAt s b) (-1 - 1))
      ha hb hab haleaf hbleaf hagrad hbgrad
    refine ⟨_, hdiv_eq,
      ⟨⟨powModel E (dataAt s b) (-1), 0, [b],
          [(-1 : ℚ) * powModel E (dataAt s b) (-1 - 1)]⟩,
        ⟨dataAt s a * powModel E (dataAt s b) (-1), 0, [a, s.length],
          [powModel E (dataAt s b) (-1), dataAt s a]⟩,
        List.append_assoc s _ _⟩, ?_, gD, hbkD, ?_, ?_⟩
    · have hlenD : s.length + 1 = (s ++ [(⟨powModel E (dataAt s b) (-1), 0, [b],
          [(-1 : ℚ) * powModel E (dataAt s b) (-1 - 1)]⟩ : Node)]).length := by simp
      rw [hlenD]
      unfold dataAt
      rw [nodeAt_append_self]
      show dataAt s a * powModel E (dataAt s b) (-1) = dataAt s a / dataAt s b
      rw [hq, div_eq_mul_inv]
    · rw [hgaD, hq, one_div]
    · rw [hgbD, hq2]
      ring
  · -- subtraction
    have hfin_negb : finiteDouble (dataAt s b * -1) := by
      unfold finiteDouble
      rw [abs_mul, abs_neg, abs_one, mul_one]
      exact hfb
    have hnegb_eq : ValueStorage.neg s b =
        .ok (s ++ [⟨dataAt s b * -1, 0, [b], [-1]⟩], s.length) := by
      unfold ValueStorage.neg ValueStorage.mulC ValueStorage.storeChecked
      rw [if_pos finiteDouble_neg_one, if_pos hfin_negb, if_pos hfin_negb,
        if_pos (by simp)]
    have hda2 : dataAt (s ++ [⟨dataAt s b * -1, 0, [b], [-1]⟩]) a = dataAt s a :=
      dataAt_append_lt s _ a ha
    have hdb2 : dataAt (s ++ [⟨dataAt s b * -1, 0, [b], [-1]⟩]) s.length =
        dataAt s b * -1 := by
      unfold dataAt
      rw [nodeAt_append_self]
    have hfin_sum : finiteDouble (dataAt s a + dataAt s b * -1) := by
      have heq : dataAt s a + dataAt s b * -1 = dataAt s a - dataAt s b := by
        ring
      rw [heq]
      exact hfinsub
    have hno_ovf : ¬ (dataAt s a > 0 ∧ dataAt s b * -1 > 0 ∧
        dataAt s a > DBL_MAX - dataAt s b * -1) := by
      rintro ⟨_, _, h3⟩
      have hle := (abs_le.mp hfinsub).2
      linarith
    have hsub_eq : ValueStorage.sub s a b =
        .ok ((s ++ [⟨dataAt s b * -1, 0, [b], [-1]⟩]) ++
          [⟨dataAt s a + dataAt s b * -1, 0, [a, s.length], [1, 1]⟩],
          s.length + 1) := by
      unfold ValueStorage.sub
      rw [hnegb_eq]
      simp only [Except.instMonad, Except.bind]
      unfold ValueStorage.add ValueStorage.storeChecked
      have hlen2 : (s ++ [(⟨dataAt s b * -1, 0, [b], [-1]⟩ : Node)]).length =
          s.length + 1 := by simp
      rw [hda2, hdb2, if_neg hno_ovf, if_pos hfin_sum, if_pos (by simp), hlen2]
    obtain ⟨gS, hbkS, hgaS, hgbS⟩ := backward_two_chain s a b
      (dataAt s b * -1) (dataAt s a + dataAt s b * -1) 1 1 (-1)
      ha hb hab haleaf hbleaf hagrad hbgrad
    refine ⟨_, hsub_eq,
      ⟨⟨dataAt s b * -1, 0, [b], [-1]⟩,
        ⟨dataAt s a + dataAt s b * -1, 0, [a, s.length], [1, 1]⟩,
        List.append_assoc s _ _⟩, ?_, gS, hbkS, hgaS, ?_⟩
    · have hlenS : s.length + 1 =
          (s ++ [(⟨dataAt s b * -1, 0, [b], [-1]⟩ : Node)]).length := by simp
      rw [hlenS]
      unfold dataAt
      rw [nodeAt_append_self]
      show dataAt s a + dataAt s b * -1 = dataAt s a - dataAt s b
      ring
    · rw [hgbS]
      ring

/-- Concrete arena for the composite-operation witness: two leaves with
data `1` and `2`. -/
def gPair : Graph := [⟨1, 0, [], []⟩, ⟨2, 0, [], []⟩]

theorem C5_composites_witness :
    (∃ sD, ValueStorage.div TransFns.triv gPair 0 1 = .ok (sD, gPair.length + 1) ∧
      (∃ nd₁ nd₂, sD = gPair ++ [nd₁, nd₂]) ∧
      dataAt sD (gPair.length + 1) = dataAt gPair 0 / dataAt gPair 1 ∧
      ∃ gD, backward sD (gPair.length + 1) = .ok gD ∧
        gradAt gD 0 = 1 / dataAt gPair 1 ∧
        gradAt gD 1 = -(dataAt gPair 0) / (dataAt gPair 1) ^ 2) ∧
    (∃ sS, ValueStorage.sub gPair 0 1 = .ok (sS, gPair.length + 1) ∧
      (∃ nd₁ nd₂, sS = gPair ++ [nd₁, nd₂]) ∧
      dataAt sS (gPair.length + 1) = dataAt gPair 0 - dataAt gPair 1 ∧
      ∃ gS, backward sS (gPair.length + 1) = .ok gS ∧
        gradAt gS 0 = 1 ∧ gradAt gS 1 = -1) :=
  C5_composites TransFns.triv gPair 0 1 (by decide) (by decide) (by decide)
    rfl rfl rfl rfl
    (finiteDouble_small (by norm_num [gPair, dataAt, nodeAt]))
    (by norm_num [gPair, dataAt, nodeAt, DBL_EPSILON])
    (finiteDouble_small (by norm_num [gPair, dataAt, nodeAt, abs_le]))
    (finiteDouble_small (by norm_num [gPair, dataAt, nodeAt, abs_le]))

end Microgpt
